import Mathlib

set_option maxHeartbeats 1000000

/- Verification of the tree-construction core of
   lighthouse-core/audits/treemap-data.js.

   Modelling conventions (shallow embedding):
   - JS strings are lists of characters (abbrev Str).
   - JS numbers appearing in this file are byte counts, hence natural numbers.
   - Optional object fields are Option values.
   - An absent children field is modelled as the empty list: the source never
     distinguishes an empty child array from an absent one.  A children array,
     once created (line 103), is immediately pushed to, and collapseAll
     (line 132) copies a child array that is therefore never empty.
   - A JS object used as a string-keyed record is a list of key/value pairs in
     insertion order (Object.entries order for string keys). -/

abbrev Str := List Char

def str (s : String) : Str := s.data

/-- SourceData (treemap-data.js line 39): resourceBytes plus the optional
unusedBytes and duplicate fields of a Node. -/
structure SourceData where
  resourceBytes : Nat
  unusedBytes : Option Nat
  duplicate : Option Str
deriving Repr, DecidableEq

instance : Inhabited SourceData := ⟨⟨0, none, none⟩⟩

/-- Node (treemap-data.js lines 29-36): name, resourceBytes, optional
unusedBytes, optional duplicate, optional children. -/
inductive Node where
  | mk (name : Str) (resourceBytes : Nat) (unusedBytes : Option Nat)
      (duplicate : Option Str) (children : List Node)

instance : Inhabited Node := ⟨Node.mk [] 0 none none []⟩

def Node.name : Node → Str
  | .mk x _ _ _ _ => x

def Node.resourceBytes : Node → Nat
  | .mk _ x _ _ _ => x

def Node.unusedBytes : Node → Option Nat
  | .mk _ _ x _ _ => x

def Node.duplicate : Node → Option Str
  | .mk _ _ _ x _ => x

def Node.children : Node → List Node
  | .mk _ _ _ _ x => x

@[simp] theorem Node.name_mk (a b c d e) : (Node.mk a b c d e).name = a := rfl
@[simp] theorem Node.resourceBytes_mk (a b c d e) :
    (Node.mk a b c d e).resourceBytes = b := rfl
@[simp] theorem Node.unusedBytes_mk (a b c d e) :
    (Node.mk a b c d e).unusedBytes = c := rfl
@[simp] theorem Node.duplicate_mk (a b c d e) : (Node.mk a b c d e).duplicate = d := rfl
@[simp] theorem Node.children_mk (a b c d e) : (Node.mk a b c d e).children = e := rfl

theorem Node.ext_iff (n : Node) :
    n = Node.mk n.name n.resourceBytes n.unusedBytes n.duplicate n.children := by
  cases n
  rfl

/-- newNode (lines 71-76). -/
def newNode (name : Str) : Node := Node.mk name 0 none none []

/-- Lines 93 and 110: if (data.unusedBytes) node.unusedBytes =
(node.unusedBytes or 0) + data.unusedBytes.  The condition is a JS truthiness
test, so an undefined or zero contribution leaves the field untouched. -/
def truthyAdd (cur : Option Nat) (contrib : Option Nat) : Option Nat :=
  match contrib with
  | none => cur
  | some k => if k = 0 then cur else some (cur.getD 0 + k)

/-- Lines 92-93 and 109-110: add the resourceBytes and (truthy) unusedBytes of
a SourceData to a node. -/
def applyData (n : Node) (d : SourceData) : Node :=
  Node.mk n.name (n.resourceBytes + d.resourceBytes) (truthyAdd n.unusedBytes d.unusedBytes)
    n.duplicate n.children

/-- Lines 109-115: the per-node update performed on the found-or-created child:
add the data, and on the last path segment install the duplicate key when the
data defines one. -/
def applyStep (d : SourceData) (isLast : Bool) (n : Node) : Node :=
  let n1 := applyData n d
  if isLast && d.duplicate.isSome then
    Node.mk n1.name n1.resourceBytes n1.unusedBytes d.duplicate n1.children
  else n1

/-- Lines 100-105: find the first child whose name equals the segment; if none
exists append a fresh node of that name; then rewrite that child with f. -/
def updateFirstWith (seg : Str) (f : Node → Node) : List Node → List Node
  | [] => [f (newNode seg)]
  | c :: cs => if c.name = seg then f c :: cs else c :: updateFirstWith seg f cs

/-- Lines 97-116: the forEach over the path segments, as a recursion over the
remaining segments.  The node passed in is the node whose children are being
searched; the data has already been applied to it. -/
def insertSegs (d : SourceData) : List Str → Node → Node
  | [], n => n
  | seg :: rest, n =>
      Node.mk n.name n.resourceBytes n.unusedBytes n.duplicate
        (updateFirstWith seg (fun c => insertSegs d rest (applyStep d rest.isEmpty c))
          n.children)

/-- Line 96, the call source.replace(sourceRoot, two quotes): remove the first
occurrence of pat anywhere in s; if pat does not occur, s is unchanged.  An
empty pat matches at position 0 and removes nothing. -/
def removeFirstOcc : Str → Str → Str
  | s, pat =>
    if pat.isPrefixOf s then s.drop pat.length
    else
      match s with
      | [] => []
      | c :: rest => c :: removeFirstOcc rest pat

/-- Whether pat occurs as a contiguous substring of s. -/
def occursIn : Str → Str → Bool
  | s, pat =>
    pat.isPrefixOf s ||
      match s with
      | [] => false
      | _ :: rest => occursIn rest pat

mutual

/-- Line 96, split(/slash+/): split on maximal runs of the slash character.
splitSlashesAux consumes the string while building the current segment in
reverse. -/
def splitSlashesAux : Str → Str → List Str
  | [], acc => [acc.reverse]
  | '/' :: rest, acc => acc.reverse :: splitSlashesGo rest
  | c :: rest, acc => splitSlashesAux rest (c :: acc)

/-- State just after one or more slashes: skip further slashes, then resume. -/
def splitSlashesGo : Str → List Str
  | [] => [[]]
  | '/' :: rest => splitSlashesGo rest
  | c :: rest => splitSlashesAux rest [c]

end

def splitSlashes (s : Str) : List Str := splitSlashesAux s []

/-- A string with no two adjacent slash characters. -/
def noDoubleSlash : Str → Bool
  | [] => true
  | [_] => true
  | a :: b :: rest => !(a = '/' && b = '/') && noDoubleSlash (b :: rest)

/-- Line 122: the literal key substituted for a falsy source. -/
def unmappedKey : Str := str "<unmapped>"

/-- Line 122: source or unmappedKey (an empty string is the only falsy
string). -/
def normalizeKey (s : Str) : Str := if s = [] then unmappedKey else s

/-- Line 96: strip the shared root and split into path segments. -/
def segmentsOf (sourceRoot source : Str) : List Str :=
  splitSlashes (removeFirstOcc source sourceRoot)

/-- Lines 88-117: apply the data to the top node, then walk/extend the tree
along the path segments. -/
def addAllNodesInSourcePath (sourceRoot : Str) (t : Node) (source : Str)
    (d : SourceData) : Node :=
  insertSegs d (segmentsOf sourceRoot source) (applyData t d)

/-- Lines 78 and 119-123: the uncompressed tree, before collapseAll runs. -/
def buildTree (sourceRoot : Str) (sourcesData : List (Str × SourceData)) : Node :=
  sourcesData.foldl
    (fun t e => addAllNodesInSourcePath sourceRoot t (normalizeKey e.1) e.2)
    (newNode sourceRoot)

/-- Number of nodes hanging off a list of trees (termination measure). -/
def countList : List Node → Nat
  | [] => 0
  | Node.mk _ _ _ _ cs :: rest => 1 + countList cs + countList rest

/-- Lines 130-133, the while loop of collapseAll: while the children array is
a singleton, join the child name onto the node name and replace the children
with the grandchildren.  The loop only rewrites name and children, so the
surrounding resourceBytes/unusedBytes/duplicate stay outside. -/
def squashGo : Str → List Node → Str × List Node
  | name, [Node.mk cn _ _ _ ccs] => squashGo (name ++ '/' :: cn) ccs
  | name, cs => (name, cs)

theorem squashGo_countList : ∀ (name : Str) (cs : List Node),
    countList (squashGo name cs).2 ≤ countList cs
  | name, [Node.mk cn a b c ccs] => by
    have h := squashGo_countList (name ++ '/' :: cn) ccs
    simp only [squashGo, countList]
    omega
  | _, [] => by simp [squashGo, countList]
  | _, (a :: b :: rest) => by
    simp [squashGo]

theorem countList_pos_of_mem {c : Node} : ∀ {cs : List Node}, c ∈ cs →
    countList [c] ≤ countList cs
  | [], h => by cases h
  | x :: rest, h => by
    rcases List.mem_cons.mp h with h | h
    · subst h; cases c; simp only [countList]; omega
    · have ih := countList_pos_of_mem h
      cases x; simp only [countList] at ih ⊢; omega

/-- Lines 129-141: collapseAll, as a pure tree rewrite.  Run the while loop at
this node, then recurse into the remaining children. -/
def collapseAll (n : Node) : Node :=
  let p := squashGo n.name n.children
  Node.mk p.1 n.resourceBytes n.unusedBytes n.duplicate
    (p.2.attach.map (fun c => collapseAll c.1))
termination_by countList [n]
decreasing_by
  have h1 : countList [c.1] ≤ countList (squashGo n.name n.children).2 :=
    countList_pos_of_mem c.2
  have h2 := squashGo_countList n.name n.children
  cases n with
  | mk a b u d cs =>
    simp only [Node.name_mk, Node.children_mk] at h1 h2 ⊢
    simp only [countList] at h1 h2 ⊢
    omega

/-- prepareTreemapNodes (lines 66-148). -/
def prepareTreemapNodes (sourceRoot : Str) (sourcesData : List (Str × SourceData)) :
    Node :=
  collapseAll (buildTree sourceRoot sourcesData)

/-- All nodes of the trees in a list, the trees themselves included. -/
def allNodesList : List Node → List Node
  | [] => []
  | Node.mk a b c d cs :: rest =>
      Node.mk a b c d cs :: (allNodesList cs ++ allNodesList rest)

def allNodes (n : Node) : List Node := allNodesList [n]

/-- First child with the given name (line 100). -/
def findChild (cs : List Node) (seg : Str) : Option Node :=
  cs.find? (fun c => c.name = seg)

/-- Descend from a node through children by name, one segment at a time. -/
def subtreeAt : Node → List Str → Option Node
  | n, [] => some n
  | n, seg :: rest =>
      match findChild n.children seg with
      | none => none
      | some c => subtreeAt c rest

/-- The names of the nodes visited when descending along a segment list
(the root itself excluded). -/
def walkNames : Node → List Str → Option (List Str)
  | _, [] => some []
  | n, seg :: rest =>
      match findChild n.children seg with
      | none => none
      | some c => (walkNames c rest).map (fun l => c.name :: l)

/-- A script element (lines 162-167): src is absent for inline scripts and may
also be the empty string, which the source treats as falsy. -/
structure ScriptElement where
  src : Option Str
  content : Option Str

/-- The value of scriptElement.src when it passes the truthiness tests on
lines 165 and 184, none otherwise. -/
def ScriptElement.truthySrc (s : ScriptElement) : Option Str :=
  match s.src with
  | some u => if u = [] then none else some u
  | none => none

/-- The slice of a JsBundles entry that makeRootNodes reads: script.src,
rawMap.sourceRoot and sizes.files. -/
structure Bundle where
  scriptSrc : Str
  rawMapSourceRoot : Option Str
  sizesFiles : List (Str × Nat)

/-- The UnusedJavascriptSummary result (lines 200-205, 227-231). -/
structure UnusedSummary where
  totalBytes : Nat
  wastedBytes : Nat
  sourcesWastedBytes : Option (List (Str × Nat))

/-- RootNodeContainer (lines 22-27). -/
structure RootNodeContainer where
  name : Str
  node : Node

/-- Indexing a string-keyed JS record. -/
def recordGet {α : Type} (m : List (Str × α)) (k : Str) : Option α :=
  (m.find? (fun e => e.1 = k)).map (fun e => e.2)

/-- Lines 183-238, the body of the for loop over script elements: the
container pushed for one script element, none for an inline script.  The
external collaborators (JsBundles, JsUsage, UnusedJavaScriptSummary,
ModuleDuplication) are passed in as data: the list of bundles, the coverage
record, the summary function, the normalize function and the set of
duplicated keys. -/
def processScript {Cov : Type} (bundles : List Bundle) (jsUsage : List (Str × Cov))
    (summaryOf : Str → Cov → Bundle → UnusedSummary)
    (normalizeSource : Str → Str) (duplicationKeys : List Str)
    (s : ScriptElement) : Option RootNodeContainer :=
  match s.truthySrc with
  | none => none
  | some srcUrl =>
    let bundle := bundles.find? (fun b => srcUrl = b.scriptSrc)
    let scriptCoverages := recordGet jsUsage srcUrl
    match bundle, scriptCoverages with
    | some b, some cov =>
        let summary := summaryOf srcUrl cov b
        match summary.sourcesWastedBytes with
        | some swb =>
            let sourcesData := b.sizesFiles.map (fun e =>
              (e.1,
               ({ resourceBytes := e.2,
                  unusedBytes := recordGet swb e.1,
                  duplicate :=
                    if (normalizeSource e.1) ∈ duplicationKeys then
                      some (normalizeSource e.1)
                    else none } : SourceData)))
            some ⟨srcUrl, prepareTreemapNodes (b.rawMapSourceRoot.getD []) sourcesData⟩
        | none =>
            some ⟨srcUrl,
              Node.mk srcUrl summary.totalBytes (some summary.wastedBytes) none []⟩
    | _, _ => some ⟨srcUrl, Node.mk srcUrl srcUrl.length none none []⟩

/-- makeRootNodes (lines 157-241): the inline-script container, if any inline
content exists, followed by one container per external script in encounter
order. -/
def makeRootNodes {Cov : Type} (scripts : List ScriptElement) (finalUrl : Str)
    (bundles : List Bundle) (jsUsage : List (Str × Cov))
    (summaryOf : Str → Cov → Bundle → UnusedSummary)
    (normalizeSource : Str → Str) (duplicationKeys : List Str) :
    List RootNodeContainer :=
  let inlineScriptLength := scripts.foldl
    (fun acc s =>
      match s.truthySrc with
      | none => acc + (s.content.getD []).length
      | some _ => acc) 0
  let inlinePart : List RootNodeContainer :=
    if inlineScriptLength ≠ 0 then
      [⟨finalUrl, Node.mk finalUrl inlineScriptLength none none []⟩]
    else []
  inlinePart ++
    scripts.filterMap (processScript bundles jsUsage summaryOf normalizeSource duplicationKeys)

/-- Joining segments with the slash character, as the spec's walk does. -/
def joinSegs : List Str → Str
  | [] => []
  | [x] => x
  | x :: y :: rest => x ++ '/' :: joinSegs (y :: rest)

/-- Append a name if it is not already present (first-seen child order). -/
def addName (l : List Str) (s : Str) : List Str := if s ∈ l then l else l ++ [s]

/-- The entries as (path segments, data) pairs, in iteration order. -/
def segsEntries (sourceRoot : Str) (sourcesData : List (Str × SourceData)) :
    List (List Str × SourceData) :=
  sourcesData.map (fun e => (segmentsOf sourceRoot (normalizeKey e.1), e.2))

/-- buildTree with the segment computation hoisted out of the fold. -/
def buildFromSegs (root : Str) (es : List (List Str × SourceData)) : Node :=
  es.foldl (fun t e => insertSegs e.2 e.1 (applyData t e.2)) (newNode root)

/-- Entries whose segment path passes through position pi. -/
def entriesThrough (pi : List Str) (es : List (List Str × SourceData)) :
    List (List Str × SourceData) :=
  es.filter (fun e => pi.isPrefixOf e.1)

/-- Total resourceBytes contributed at a position. -/
def rbAt (pi : List Str) (es : List (List Str × SourceData)) : Nat :=
  ((entriesThrough pi es).map (fun e => e.2.resourceBytes)).sum

/-- Total truthy unusedBytes contributed at a position. -/
def ubSumAt (pi : List Str) (es : List (List Str × SourceData)) : Nat :=
  ((entriesThrough pi es).map (fun e => e.2.unusedBytes.getD 0)).sum

/-- The unusedBytes field value at a position. -/
def ubAt (pi : List Str) (es : List (List Str × SourceData)) : Option Nat :=
  if ubSumAt pi es = 0 then none else some (ubSumAt pi es)

/-- The duplicate field value at a position: last write among entries ending
exactly there with a defined key. -/
def dupAt (pi : List Str) (es : List (List Str × SourceData)) : Option Str :=
  es.foldl
    (fun a e => if e.1 = pi ∧ e.2.duplicate.isSome = true then e.2.duplicate else a)
    none

/-- The next segment of an entry path strictly below position pi. -/
def nextSegOf (pi segs : List Str) : Option Str :=
  if pi.isPrefixOf segs then (segs.drop pi.length).head? else none

/-- Child names at a position, in first-seen order. -/
def nextSegsAt (pi : List Str) (es : List (List Str × SourceData)) : List Str :=
  es.foldl
    (fun acc e =>
      match nextSegOf pi e.1 with
      | some s => addName acc s
      | none => acc) []

/-- Whether a node exists at position pi. -/
def existsAt (pi : List Str) (es : List (List Str × SourceData)) : Bool :=
  pi.isEmpty || es.any (fun e => pi.isPrefixOf e.1)

/-- Sum of an arbitrary weight over the entries through a position. -/
def wSumAt (w : SourceData → Nat) (pi : List Str)
    (es : List (List Str × SourceData)) : Nat :=
  ((entriesThrough pi es).map (fun e => w e.2)).sum

/-- No entry path is a proper (strict) segment-prefix of another entry path. -/
def NoProperPrefix (es : List (List Str × SourceData)) : Prop :=
  ∀ e1 ∈ es, ∀ e2 ∈ es, e1.1 <+: e2.1 → e1.1 = e2.1

def childrenSumRB (n : Node) : Nat := (n.children.map Node.resourceBytes).sum

def childrenSumUB (n : Node) : Nat :=
  (n.children.map (fun c => (Node.unusedBytes c).getD 0)).sum

/-- The inductive shape of a well-aggregated node: unusedBytes is never a
present zero, and an internal node carries exactly the sums of its children. -/
def strongOk (n : Node) : Prop :=
  n.unusedBytes ≠ some 0 ∧
  (n.children ≠ [] →
    n.resourceBytes = childrenSumRB n ∧
    n.unusedBytes =
      (if childrenSumUB n = 0 then none else some (childrenSumUB n)))

@[simp] theorem squashGo_nil (nm : Str) : squashGo nm [] = (nm, []) := by
  rw [squashGo]
  simp

@[simp] theorem squashGo_two (nm : Str) (a b : Node) (rest : List Node) :
    squashGo nm (a :: b :: rest) = (nm, a :: b :: rest) := by
  cases a
  rw [squashGo]
  simp

@[simp] theorem squashGo_single (nm cn : Str) (x y z) (ccs : List Node) :
    squashGo nm [Node.mk cn x y z ccs] = squashGo (nm ++ '/' :: cn) ccs := by
  rw [squashGo]

theorem collapseAll_eq (n : Node) :
    collapseAll n =
      Node.mk (squashGo n.name n.children).1 n.resourceBytes n.unusedBytes
        n.duplicate ((squashGo n.name n.children).2.map collapseAll) := by
  rw [collapseAll]
  simp [List.attach_map_val]

theorem joinSegs_cons (x : Str) (l : List Str) (h : l ≠ []) :
    joinSegs (x :: l) = x ++ '/' :: joinSegs l := by
  cases l
  · exact absurd rfl h
  · rfl

theorem noDoubleSlash_tail {a : Char} {l : Str} (h : noDoubleSlash (a :: l) = true) :
    noDoubleSlash l = true := by
  cases l with
  | nil => rfl
  | cons b rest =>
    simp only [noDoubleSlash, Bool.and_eq_true] at h
    exact h.2

theorem splitSlashes_aux_go_ne_nil : ∀ s : Str,
    (∀ acc, splitSlashesAux s acc ≠ []) ∧ splitSlashesGo s ≠ [] := by
  intro s
  induction s with
  | nil =>
    constructor
    · intro acc
      simp [splitSlashesAux]
    · simp [splitSlashesGo]
  | cons c rest ih =>
    constructor
    · intro acc
      by_cases hc : c = '/'
      · subst hc
        simp [splitSlashesAux]
      · rw [splitSlashesAux]
        · exact ih.1 _
        · exact hc
    · by_cases hc : c = '/'
      · subst hc
        rw [splitSlashesGo]
        exact ih.2
      · rw [splitSlashesGo]
        · exact ih.1 _
        · exact hc

theorem splitSlashes_ne_nil (s : Str) : splitSlashes s ≠ [] :=
  (splitSlashes_aux_go_ne_nil s).1 []

theorem split_join : ∀ s : Str,
    (∀ acc, noDoubleSlash s = true →
      joinSegs (splitSlashesAux s acc) = acc.reverse ++ s) ∧
    (s.head? ≠ some '/' → noDoubleSlash s = true →
      joinSegs (splitSlashesGo s) = s) := by
  intro s
  induction s with
  | nil =>
    constructor
    · intro acc _
      simp [splitSlashesAux, joinSegs]
    · intro _ _
      simp [splitSlashesGo, joinSegs]
  | cons c rest ih =>
    constructor
    · intro acc hnd
      by_cases hc : c = '/'
      · subst hc
        rw [splitSlashesAux]
        rw [joinSegs_cons _ _ (splitSlashes_aux_go_ne_nil rest).2]
        have hhead : rest.head? ≠ some '/' := by
          cases rest with
          | nil => simp
          | cons b rest2 =>
            simp only [noDoubleSlash, Bool.and_eq_true] at hnd
            simp only [List.head?_cons, ne_eq, Option.some.injEq]
            intro hb
            subst hb
            simp at hnd
        rw [ih.2 hhead (noDoubleSlash_tail hnd)]
      · rw [splitSlashesAux]
        · rw [ih.1 (c :: acc) (noDoubleSlash_tail hnd)]
          simp
        · exact hc
    · intro hhead hnd
      by_cases hc : c = '/'
      · subst hc
        simp at hhead
      · rw [splitSlashesGo]
        · rw [ih.1 [c] (noDoubleSlash_tail hnd)]
          simp
        · exact hc

theorem joinSegs_splitSlashes {s : Str} (h : noDoubleSlash s = true) :
    joinSegs (splitSlashes s) = s := by
  have := (split_join s).1 [] h
  simpa [splitSlashes] using this

theorem removeFirstOcc_of_isPrefixOf {s pat : Str} (h : pat.isPrefixOf s = true) :
    removeFirstOcc s pat = s.drop pat.length := by
  rw [removeFirstOcc.eq_def]
  simp [h]

theorem removeFirstOcc_of_not_occursIn : ∀ {s pat : Str},
    occursIn s pat = false → removeFirstOcc s pat = s := by
  intro s
  induction s with
  | nil =>
    intro pat h
    rw [occursIn] at h
    rw [removeFirstOcc.eq_def]
    simp only [Bool.or_eq_false_iff] at h
    simp [h.1]
  | cons c rest ih =>
    intro pat h
    rw [occursIn] at h
    simp only [Bool.or_eq_false_iff] at h
    rw [removeFirstOcc.eq_def]
    simp only [h.1, Bool.false_eq_true, if_false]
    rw [ih h.2]

theorem reconstruct_of_prefix_noDoubleSlash {root s : Str}
    (hpre : root.isPrefixOf s = true)
    (hnds : noDoubleSlash (s.drop root.length) = true) :
    root ++ joinSegs (segmentsOf root s) = s := by
  rw [segmentsOf, removeFirstOcc_of_isPrefixOf hpre, joinSegs_splitSlashes hnds]
  obtain ⟨t, rfl⟩ := List.isPrefixOf_iff_prefix.mp hpre
  simp

@[simp] theorem insertSegs_nil (d : SourceData) (n : Node) : insertSegs d [] n = n := rfl

theorem insertSegs_cons (d : SourceData) (seg : Str) (rest : List Str) (n : Node) :
    insertSegs d (seg :: rest) n =
      Node.mk n.name n.resourceBytes n.unusedBytes n.duplicate
        (updateFirstWith seg (fun c => insertSegs d rest (applyStep d rest.isEmpty c))
          n.children) := rfl

@[simp] theorem insertSegs_name (d : SourceData) (segs : List Str) (n : Node) :
    (insertSegs d segs n).name = n.name := by
  cases segs <;> rfl

@[simp] theorem insertSegs_resourceBytes (d : SourceData) (segs : List Str) (n : Node) :
    (insertSegs d segs n).resourceBytes = n.resourceBytes := by
  cases segs <;> rfl

@[simp] theorem insertSegs_unusedBytes (d : SourceData) (segs : List Str) (n : Node) :
    (insertSegs d segs n).unusedBytes = n.unusedBytes := by
  cases segs <;> rfl

@[simp] theorem insertSegs_duplicate (d : SourceData) (segs : List Str) (n : Node) :
    (insertSegs d segs n).duplicate = n.duplicate := by
  cases segs <;> rfl

@[simp] theorem applyData_name (n : Node) (d : SourceData) :
    (applyData n d).name = n.name := rfl

@[simp] theorem applyData_resourceBytes (n : Node) (d : SourceData) :
    (applyData n d).resourceBytes = n.resourceBytes + d.resourceBytes := rfl

@[simp] theorem applyData_unusedBytes (n : Node) (d : SourceData) :
    (applyData n d).unusedBytes = truthyAdd n.unusedBytes d.unusedBytes := rfl

@[simp] theorem applyData_duplicate (n : Node) (d : SourceData) :
    (applyData n d).duplicate = n.duplicate := rfl

@[simp] theorem applyData_children (n : Node) (d : SourceData) :
    (applyData n d).children = n.children := rfl

@[simp] theorem applyStep_name (d : SourceData) (il : Bool) (n : Node) :
    (applyStep d il n).name = n.name := by
  simp only [applyStep]
  split <;> simp

@[simp] theorem applyStep_resourceBytes (d : SourceData) (il : Bool) (n : Node) :
    (applyStep d il n).resourceBytes = n.resourceBytes + d.resourceBytes := by
  simp only [applyStep]
  split <;> simp

@[simp] theorem applyStep_unusedBytes (d : SourceData) (il : Bool) (n : Node) :
    (applyStep d il n).unusedBytes = truthyAdd n.unusedBytes d.unusedBytes := by
  simp only [applyStep]
  split <;> simp

@[simp] theorem applyStep_children (d : SourceData) (il : Bool) (n : Node) :
    (applyStep d il n).children = n.children := by
  simp only [applyStep]
  split <;> simp

theorem applyStep_duplicate (d : SourceData) (il : Bool) (n : Node) :
    (applyStep d il n).duplicate =
      (if il && d.duplicate.isSome then d.duplicate else n.duplicate) := by
  simp only [applyStep]
  split <;> simp_all

@[simp] theorem subtreeAt_nil (n : Node) : subtreeAt n [] = some n := rfl

theorem subtreeAt_cons (n : Node) (seg : Str) (rest : List Str) :
    subtreeAt n (seg :: rest) =
      match findChild n.children seg with
      | none => none
      | some c => subtreeAt c rest := rfl

theorem subtreeAt_congr_children {n m : Node} (h : n.children = m.children)
    {π : List Str} (hπ : π ≠ []) : subtreeAt n π = subtreeAt m π := by
  cases π with
  | nil => exact absurd rfl hπ
  | cons s rest => rw [subtreeAt_cons, subtreeAt_cons, h]

theorem subtreeAt_applyStep (d : SourceData) (il : Bool) (c : Node)
    {π : List Str} (hπ : π ≠ []) :
    subtreeAt (applyStep d il c) π = subtreeAt c π :=
  subtreeAt_congr_children (applyStep_children d il c) hπ

@[simp] theorem findChild_nil (seg : Str) : findChild [] seg = none := rfl

theorem findChild_cons (c : Node) (cs : List Node) (seg : Str) :
    findChild (c :: cs) seg =
      if c.name = seg then some c else findChild cs seg := by
  by_cases h : c.name = seg
  · simp [findChild, List.find?_cons_of_pos, h]
  · simp only [findChild] at *
    rw [List.find?_cons_of_neg]
    · simp [h]
    · simp [h]

theorem findChild_updateFirstWith_self (seg : Str) (f : Node → Node)
    (hf : ∀ c, (f c).name = c.name) :
    ∀ cs, findChild (updateFirstWith seg f cs) seg =
      some (f ((findChild cs seg).getD (newNode seg)))
  | [] => by
    simp [updateFirstWith, findChild_cons, hf, newNode]
  | c :: cs => by
    by_cases h : c.name = seg
    · simp [updateFirstWith, h, findChild_cons, hf]
    · simp only [updateFirstWith, h, if_false]
      rw [findChild_cons, findChild_cons]
      simp only [h, if_false]
      exact findChild_updateFirstWith_self seg f hf cs

theorem findChild_updateFirstWith_other (seg x : Str) (f : Node → Node)
    (hf : ∀ c, (f c).name = c.name) (hne : x ≠ seg) :
    ∀ cs, findChild (updateFirstWith seg f cs) x = findChild cs x
  | [] => by
    have hsx : ¬(seg = x) := fun h2 => hne h2.symm
    simp only [updateFirstWith]
    rw [findChild_cons]
    simp [hf, newNode, hsx]
  | c :: cs => by
    have hsx : ¬(seg = x) := fun h2 => hne h2.symm
    by_cases h : c.name = seg
    · simp only [updateFirstWith, h, if_true]
      rw [findChild_cons, findChild_cons]
      simp only [hf, h]
      simp [hsx]
    · simp only [updateFirstWith, h, if_false]
      rw [findChild_cons, findChild_cons]
      by_cases h2 : c.name = x
      · simp [h2]
      · simp only [h2, if_false]
        exact findChild_updateFirstWith_other seg x f hf hne cs

theorem updateFirstWith_names (seg : Str) (f : Node → Node)
    (hf : ∀ c, (f c).name = c.name) :
    ∀ cs, (updateFirstWith seg f cs).map Node.name =
      addName (cs.map Node.name) seg
  | [] => by simp [updateFirstWith, addName, hf, newNode]
  | c :: cs => by
    by_cases h : c.name = seg
    · simp [updateFirstWith, h, addName, hf]
    · have ih := updateFirstWith_names seg f hf cs
      have hcs : ¬(seg = c.name) := fun hq => h hq.symm
      simp only [updateFirstWith, h, if_false, List.map_cons, ih, addName]
      by_cases h2 : seg ∈ cs.map Node.name
      · simp [h2, hcs]
      · simp [h2, hcs]

theorem subtreeAt_bind (n : Node) (seg : Str) (rest : List Str) :
    subtreeAt n (seg :: rest) =
      (findChild n.children seg).bind (fun c => subtreeAt c rest) := by
  cases hfc : findChild n.children seg <;> simp [subtreeAt_cons, hfc]

theorem stepf_name (d : SourceData) (rest : List Str) :
    ∀ c, (insertSegs d rest (applyStep d rest.isEmpty c)).name = c.name := by
  intro c
  simp

@[simp] theorem subtreeAt_newNode_cons (nm : Str) (p : Str) (π : List Str) :
    subtreeAt (newNode nm) (p :: π) = none := by
  rw [subtreeAt_bind]
  simp [newNode]

theorem subtreeAt_insertSegs_untouched (d : SourceData) :
    ∀ (π segs : List Str) (t : Node), ¬(π <+: segs) →
      subtreeAt (insertSegs d segs t) π = subtreeAt t π := by
  intro π
  induction π with
  | nil =>
    intro segs t h
    exact absurd ( List.nil_prefix) h
  | cons s π' ih =>
    intro segs t hnp
    cases segs with
    | nil => simp
    | cons g rest =>
      rw [insertSegs_cons, subtreeAt_bind, subtreeAt_bind]
      simp only [Node.children_mk]
      by_cases hsg : s = g
      · subst hsg
        have hπ'np : ¬(π' <+: rest) := fun h => hnp (List.cons_prefix_cons.mpr ⟨rfl, h⟩)
        have hπ'nil : π' ≠ [] := by
          intro h
          subst h
          exact hπ'np List.nil_prefix
        rw [findChild_updateFirstWith_self s _ (stepf_name d rest)]
        cases hfc : findChild t.children s with
        | none =>
          simp only [hfc, Option.getD_none, Option.some_bind, Option.none_bind]
          rw [ih rest _ hπ'np, subtreeAt_applyStep _ _ _ hπ'nil]
          cases π' with
          | nil => exact absurd rfl hπ'nil
          | cons p π'' => simp
        | some c0 =>
          simp only [hfc, Option.getD_some, Option.some_bind]
          rw [ih rest _ hπ'np, subtreeAt_applyStep _ _ _ hπ'nil]
      · rw [findChild_updateFirstWith_other g s _ (stepf_name d rest) hsg]

theorem subtreeAt_insertSegs_prefix_found (d : SourceData) :
    ∀ (π segs : List Str) (t n : Node), π <+: segs → π ≠ [] →
      subtreeAt t π = some n →
      ∃ m, subtreeAt (insertSegs d segs t) π = some m ∧
        m.name = n.name ∧
        m.resourceBytes = n.resourceBytes + d.resourceBytes ∧
        m.unusedBytes = truthyAdd n.unusedBytes d.unusedBytes ∧
        m.duplicate =
          (if π = segs ∧ d.duplicate.isSome = true then d.duplicate else n.duplicate) ∧
        m.children.map Node.name =
          (if π = segs then n.children.map Node.name
           else addName (n.children.map Node.name) ((segs.drop π.length).headD [])) := by
  intro π
  induction π with
  | nil =>
    intro segs t n _ h
    exact absurd rfl h
  | cons s π' ih =>
    intro segs t n hpre hne hsub
    cases segs with
    | nil =>
      obtain ⟨u, hu⟩ := hpre
      simp at hu
    | cons g rest =>
      obtain ⟨hsg, hπ'pre⟩ := List.cons_prefix_cons.mp hpre
      subst hsg
      rw [subtreeAt_bind] at hsub
      cases hfc : findChild t.children s with
      | none => rw [hfc] at hsub; simp at hsub
      | some c0 =>
        rw [hfc, Option.some_bind] at hsub
        rw [insertSegs_cons, subtreeAt_bind]
        simp only [Node.children_mk]
        rw [findChild_updateFirstWith_self s _ (stepf_name d rest), hfc,
          Option.getD_some, Option.some_bind]
        cases π' with
        | nil =>
          simp only [subtreeAt_nil, Option.some.injEq] at hsub
          subst hsub
          refine ⟨insertSegs d rest (applyStep d rest.isEmpty c0), by simp, by simp, ?_, ?_, ?_, ?_⟩
          · simp
          · simp
          · rw [insertSegs_duplicate, applyStep_duplicate]
            cases rest with
            | nil => by_cases hds : d.duplicate.isSome = true <;> simp [hds]
            | cons r rest2 =>
              have hne2 : ¬([s] = s :: r :: rest2) := by simp
              simp [hne2]
          · cases rest with
            | nil => simp
            | cons r rest2 =>
              have hne2 : ¬([s] = s :: r :: rest2) := by simp
              rw [insertSegs_cons]
              simp only [Node.children_mk, applyStep_children, hne2, if_false]
              rw [updateFirstWith_names r _ (stepf_name d rest2)]
              simp
        | cons p π'' =>
          have hsub2 : subtreeAt (applyStep d rest.isEmpty c0) (p :: π'') = some n := by
            rw [subtreeAt_applyStep _ _ _ (by simp)]
            exact hsub
          obtain ⟨m, hm, hmn, hmr, hmu, hmd, hmc⟩ :=
            ih rest (applyStep d rest.isEmpty c0) n hπ'pre (by simp) hsub2
          refine ⟨m, hm, hmn, hmr, hmu, ?_, ?_⟩
          · rw [hmd]
            by_cases hps : p :: π'' = rest
            · simp [hps]
            · have hq : ¬(s :: p :: π'' = s :: rest) := by simp [hps]
              simp [hps, hq]
          · rw [hmc]
            have hdrop : ((s :: rest).drop (p :: π'').length.succ).headD ([] : Str)
                = (rest.drop (p :: π'').length).headD [] := by simp
            by_cases hps : p :: π'' = rest
            · simp [hps]
            · have hq : ¬(s :: p :: π'' = s :: rest) := by simp [hps]
              simp only [hps, if_false, hq, List.length_cons, List.drop_succ_cons]

theorem subtreeAt_insertSegs_prefix_none (d : SourceData) :
    ∀ (π segs : List Str) (t : Node), π <+: segs → π ≠ [] →
      subtreeAt t π = none →
      ∃ m, subtreeAt (insertSegs d segs t) π = some m ∧
        m.name = π.getLast?.getD [] ∧
        m.resourceBytes = d.resourceBytes ∧
        m.unusedBytes = truthyAdd none d.unusedBytes ∧
        m.duplicate = (if π = segs ∧ d.duplicate.isSome = true then d.duplicate else none) ∧
        m.children.map Node.name =
          (if π = segs then ([] : List Str)
           else [(segs.drop π.length).headD []]) := by
  intro π
  induction π with
  | nil =>
    intro segs t _ h
    exact absurd rfl h
  | cons s π' ih =>
    intro segs t hpre hne hsub
    cases segs with
    | nil =>
      obtain ⟨u, hu⟩ := hpre
      simp at hu
    | cons g rest =>
      obtain ⟨hsg, hπ'pre⟩ := List.cons_prefix_cons.mp hpre
      subst hsg
      rw [subtreeAt_bind] at hsub
      rw [insertSegs_cons, subtreeAt_bind]
      simp only [Node.children_mk]
      rw [findChild_updateFirstWith_self s _ (stepf_name d rest)]
      cases hfc : findChild t.children s with
      | some c0 =>
        rw [hfc] at hsub
        rw [Option.some_bind] at hsub
        have hπ'nil : π' ≠ [] := by
          intro h
          subst h
          simp at hsub
        have hsub2 : subtreeAt (applyStep d rest.isEmpty c0) π' = none := by
          rw [subtreeAt_applyStep _ _ _ hπ'nil]
          exact hsub
        obtain ⟨m, hm, hmn, hmr, hmu, hmd, hmc⟩ :=
          ih rest (applyStep d rest.isEmpty c0) hπ'pre hπ'nil hsub2
        simp only [Option.getD_some, Option.some_bind]
        refine ⟨m, hm, ?_, hmr, hmu, ?_, ?_⟩
        · rw [hmn]
          cases π' with
          | nil => exact absurd rfl hπ'nil
          | cons p π'' => simp
        · rw [hmd]
          by_cases hps : π' = rest
          · simp [hps]
          · have hq : ¬(s :: π' = s :: rest) := by simp [hps]
            simp [hps, hq]
        · rw [hmc]
          by_cases hps : π' = rest
          · simp [hps]
          · have hq : ¬(s :: π' = s :: rest) := by simp [hps]
            cases π' with
            | nil => exact absurd rfl hπ'nil
            | cons p π'' =>
              simp only [hps, if_false, hq, List.length_cons, List.drop_succ_cons]
      | none =>
        simp only [Option.getD_none, Option.some_bind]
        cases π' with
        | nil =>
          refine ⟨insertSegs d rest (applyStep d rest.isEmpty (newNode s)),
            by simp, by simp [newNode], by simp [newNode], by simp [newNode], ?_, ?_⟩
          · rw [insertSegs_duplicate, applyStep_duplicate]
            simp only [newNode, Node.duplicate_mk]
            cases rest with
            | nil => by_cases hds : d.duplicate.isSome = true <;> simp [hds]
            | cons r rest2 =>
              have hne2 : ¬([s] = s :: r :: rest2) := by simp
              simp [hne2]
          · cases rest with
            | nil => simp [newNode]
            | cons r rest2 =>
              have hne2 : ¬([s] = s :: r :: rest2) := by simp
              rw [insertSegs_cons]
              simp only [Node.children_mk, applyStep_children, hne2, if_false]
              rw [updateFirstWith_names r _ (stepf_name d rest2)]
              simp [newNode, addName]
        | cons p π'' =>
          have hsub2 : subtreeAt (applyStep d rest.isEmpty (newNode s)) (p :: π'') = none := by
            rw [subtreeAt_applyStep _ _ _ (by simp)]
            simp
          obtain ⟨m, hm, hmn, hmr, hmu, hmd, hmc⟩ :=
            ih rest (applyStep d rest.isEmpty (newNode s)) hπ'pre (by simp) hsub2
          refine ⟨m, hm, ?_, hmr, hmu, ?_, ?_⟩
          · rw [hmn]
            simp
          · rw [hmd]
            by_cases hps : p :: π'' = rest
            · simp [hps]
            · have hq : ¬(s :: p :: π'' = s :: rest) := by simp [hps]
              simp [hps, hq]
          · rw [hmc]
            by_cases hps : p :: π'' = rest
            · simp [hps]
            · have hq : ¬(s :: p :: π'' = s :: rest) := by simp [hps]
              simp only [hps, if_false, hq, List.length_cons, List.drop_succ_cons]

theorem buildTree_eq_buildFromSegs (root : Str) (sourcesData : List (Str × SourceData)) :
    buildTree root sourcesData = buildFromSegs root (segsEntries root sourcesData) := by
  rw [buildTree, buildFromSegs, segsEntries, List.foldl_map]
  rfl

theorem buildFromSegs_append (root : Str) (es : List (List Str × SourceData)) (e) :
    buildFromSegs root (es ++ [e]) =
      insertSegs e.2 e.1 (applyData (buildFromSegs root es) e.2) := by
  rw [buildFromSegs, List.foldl_append]
  rfl

theorem rbAt_append (pi segs : List Str) (d : SourceData) (es) :
    rbAt pi (es ++ [(segs, d)]) =
      rbAt pi es + (if pi.isPrefixOf segs then d.resourceBytes else 0) := by
  by_cases h : pi.isPrefixOf segs <;>
    simp [rbAt, entriesThrough, List.filter_append, h]

theorem ubSumAt_append (pi segs : List Str) (d : SourceData) (es) :
    ubSumAt pi (es ++ [(segs, d)]) =
      ubSumAt pi es + (if pi.isPrefixOf segs then d.unusedBytes.getD 0 else 0) := by
  by_cases h : pi.isPrefixOf segs <;>
    simp [ubSumAt, entriesThrough, List.filter_append, h]

theorem truthyAdd_ite (S : Nat) (u : Option Nat) :
    truthyAdd (if S = 0 then none else some S) u =
      (if S + u.getD 0 = 0 then none else some (S + u.getD 0)) := by
  cases u with
  | none => by_cases h : S = 0 <;> simp [truthyAdd, h]
  | some k =>
    by_cases hk : k = 0
    · subst hk
      by_cases h : S = 0 <;> simp [truthyAdd, h]
    · have hsk : ¬(S + k = 0) := by omega
      by_cases h : S = 0 <;> simp [truthyAdd, h, hk, hsk]

theorem ubAt_append (pi segs : List Str) (d : SourceData) (es) :
    ubAt pi (es ++ [(segs, d)]) =
      truthyAdd (ubAt pi es) (if pi.isPrefixOf segs then d.unusedBytes else none) := by
  rw [ubAt, ubAt, ubSumAt_append]
  by_cases h : pi.isPrefixOf segs
  · simp only [h, if_true]
    rw [truthyAdd_ite]
  · simp [h, truthyAdd]

theorem dupAt_append (pi segs : List Str) (d : SourceData) (es) :
    dupAt pi (es ++ [(segs, d)]) =
      (if segs = pi ∧ d.duplicate.isSome = true then d.duplicate else dupAt pi es) := by
  rw [dupAt, dupAt, List.foldl_append]
  rfl

theorem nextSegsAt_append (pi segs : List Str) (d : SourceData) (es) :
    nextSegsAt pi (es ++ [(segs, d)]) =
      (match nextSegOf pi segs with
       | some s => addName (nextSegsAt pi es) s
       | none => nextSegsAt pi es) := by
  rw [nextSegsAt, nextSegsAt, List.foldl_append]
  rfl

theorem existsAt_append (pi segs : List Str) (d : SourceData) (es) :
    existsAt pi (es ++ [(segs, d)]) = (existsAt pi es || pi.isPrefixOf segs) := by
  simp [existsAt, List.any_append, Bool.or_assoc]

theorem not_existsAt_facts {pi : List Str} {es : List (List Str × SourceData)}
    (h : existsAt pi es = false) :
    ∀ e ∈ es, pi.isPrefixOf e.1 = false := by
  intro e he
  simp only [existsAt, Bool.or_eq_false_iff, List.any_eq_false] at h
  have h2 := h.2 e he
  rw [Bool.eq_false_iff]
  intro hc
  exact h2 hc

theorem entriesThrough_eq_nil {pi : List Str} {es : List (List Str × SourceData)}
    (h : existsAt pi es = false) : entriesThrough pi es = [] := by
  rw [entriesThrough, List.filter_eq_nil_iff]
  intro e he
  have := not_existsAt_facts h e he
  simp [this]

theorem rbAt_eq_zero {pi : List Str} {es} (h : existsAt pi es = false) :
    rbAt pi es = 0 := by
  rw [rbAt, entriesThrough_eq_nil h]
  rfl

theorem ubAt_eq_none {pi : List Str} {es} (h : existsAt pi es = false) :
    ubAt pi es = none := by
  rw [ubAt, ubSumAt, entriesThrough_eq_nil h]
  rfl

theorem foldl_dup_const {pi : List Str} :
    ∀ (es : List (List Str × SourceData)) (a : Option Str),
    (∀ e ∈ es, e.1 ≠ pi) →
    es.foldl
      (fun a e => if e.1 = pi ∧ e.2.duplicate.isSome = true then e.2.duplicate else a)
      a = a
  | [], _, _ => rfl
  | e :: es2, a, h => by
    rw [List.foldl_cons]
    have hne : ¬(e.1 = pi ∧ e.2.duplicate.isSome = true) :=
      fun hc => (h e (by simp)) hc.1
    simp only [hne, if_false]
    exact foldl_dup_const es2 a (fun x hx => h x (by simp [hx]))

theorem ne_of_isPrefixOf_false {pi q : List Str} (h : pi.isPrefixOf q = false) :
    q ≠ pi := by
  intro heq
  subst heq
  have h2 : q.isPrefixOf q = true := List.isPrefixOf_iff_prefix.mpr (List.prefix_refl q)
  rw [h] at h2
  exact Bool.false_ne_true h2

theorem dupAt_eq_none {pi : List Str} {es} (h : existsAt pi es = false) :
    dupAt pi es = none := by
  rw [dupAt]
  exact foldl_dup_const es none
    (fun e he => ne_of_isPrefixOf_false (not_existsAt_facts h e he))

theorem foldl_next_const {pi : List Str} :
    ∀ (es : List (List Str × SourceData)) (acc : List Str),
    (∀ e ∈ es, pi.isPrefixOf e.1 = false) →
    es.foldl
      (fun acc e =>
        match nextSegOf pi e.1 with
        | some s => addName acc s
        | none => acc) acc = acc
  | [], _, _ => rfl
  | e :: es2, acc, h => by
    rw [List.foldl_cons]
    have h2 : nextSegOf pi e.1 = none := by
      rw [nextSegOf, h e (by simp)]
      simp
    rw [h2]
    exact foldl_next_const es2 acc (fun x hx => h x (by simp [hx]))

theorem nextSegsAt_eq_nil {pi : List Str} {es} (h : existsAt pi es = false) :
    nextSegsAt pi es = [] := by
  rw [nextSegsAt]
  exact foldl_next_const es [] (not_existsAt_facts h)

theorem getLast?_getD_of_ne_nil {π : List Str} (h : π ≠ []) (a b : Str) :
    π.getLast?.getD a = π.getLast?.getD b := by
  cases hq : π.getLast? with
  | none =>
    rw [List.getLast?_eq_none_iff] at hq
    exact absurd hq h
  | some x => rfl

theorem drop_ne_nil_of_strict_extension {π segs : List Str} (hpre : π <+: segs)
    (hps : π ≠ segs) : segs.drop π.length ≠ [] := by
  obtain ⟨u, rfl⟩ := hpre
  rw [List.drop_left]
  intro hu
  subst hu
  simp at hps

theorem buildFromSegs_char (root : Str) :
    ∀ (es : List (List Str × SourceData)), (∀ e ∈ es, e.1 ≠ []) →
      ∀ π : List Str,
      (existsAt π es = false → subtreeAt (buildFromSegs root es) π = none) ∧
      (existsAt π es = true → ∃ n, subtreeAt (buildFromSegs root es) π = some n ∧
        n.name = π.getLast?.getD root ∧
        n.resourceBytes = rbAt π es ∧
        n.unusedBytes = ubAt π es ∧
        n.duplicate = dupAt π es ∧
        n.children.map Node.name = nextSegsAt π es) := by
  intro es
  induction es using List.reverseRecOn with
  | nil =>
    intro _ π
    constructor
    · intro hex
      cases π with
      | nil => simp [existsAt] at hex
      | cons s π' =>
        show subtreeAt (newNode root) (s :: π') = none
        simp
    · intro hex
      cases π with
      | cons s π' => simp [existsAt] at hex
      | nil =>
        refine ⟨newNode root, rfl, ?_, ?_, ?_, ?_, ?_⟩ <;>
          simp [newNode, rbAt, entriesThrough, ubAt, ubSumAt, dupAt, nextSegsAt,
            buildFromSegs]
  | append_singleton es e ih =>
    intro hne π
    obtain ⟨segs, d⟩ := e
    have hne2 : ∀ x ∈ es, x.1 ≠ [] := fun x hx => hne x (by simp [hx])
    have hsegs : segs ≠ [] := by
      have := hne (segs, d) (by simp)
      simpa using this
    have ihπ := ih hne2
    simp only [buildFromSegs_append]
    by_cases hπnil : π = []
    · subst hπnil
      constructor
      · intro hex
        simp [existsAt] at hex
      · intro _
        obtain ⟨n0, hn0, hname, hrb, hub, hdup, hch⟩ := (ihπ []).2 (by simp [existsAt])
        have hn0T : n0 = buildFromSegs root es := by
          simp only [subtreeAt_nil, Option.some.injEq] at hn0
          exact hn0.symm
        have hpre0 : ([] : List Str).isPrefixOf segs = true :=
          List.isPrefixOf_iff_prefix.mpr ( List.nil_prefix)
        refine ⟨insertSegs d segs (applyData (buildFromSegs root es) d), rfl,
          ?_, ?_, ?_, ?_, ?_⟩
        · simp [← hn0T, hname]
        · rw [rbAt_append]
          simp [← hn0T, hrb, hpre0]
        · rw [ubAt_append]
          simp only [hpre0, if_true]
          rw [insertSegs_unusedBytes, applyData_unusedBytes, ← hn0T, hub]
        · rw [dupAt_append]
          have hq : ¬(segs = [] ∧ d.duplicate.isSome = true) := fun hc => hsegs hc.1
          simp only [hq, if_false]
          rw [insertSegs_duplicate, applyData_duplicate, ← hn0T, hdup]
        · rw [nextSegsAt_append]
          cases segs with
          | nil => exact absurd rfl hsegs
          | cons g rest =>
            have hnext : nextSegOf [] (g :: rest) = some g := by
              rw [nextSegOf]
              simp
            rw [hnext, insertSegs_cons]
            simp only [Node.children_mk, applyData_children]
            rw [updateFirstWith_names g _ (stepf_name d rest), ← hn0T, hch]
    · by_cases hpre : π.isPrefixOf segs = true
      · have hpreP : π <+: segs := List.isPrefixOf_iff_prefix.mp hpre
        constructor
        · intro hex
          rw [existsAt_append] at hex
          simp [hpre] at hex
        · intro _
          by_cases hex : existsAt π es = true
          · obtain ⟨n0, hn0, hname, hrb, hub, hdup, hch⟩ := (ihπ π).2 hex
            have hn0' : subtreeAt (applyData (buildFromSegs root es) d) π = some n0 := by
              rw [subtreeAt_congr_children (applyData_children _ _) hπnil]
              exact hn0
            obtain ⟨m, hm, hmn, hmr, hmu, hmd, hmc⟩ :=
              subtreeAt_insertSegs_prefix_found d π segs _ n0 hpreP hπnil hn0'
            refine ⟨m, hm, ?_, ?_, ?_, ?_, ?_⟩
            · rw [hmn, hname]
            · rw [hmr, hrb, rbAt_append]
              simp [hpre]
            · rw [hmu, hub, ubAt_append]
              simp [hpre]
            · rw [hmd, hdup, dupAt_append]
              by_cases hps : π = segs
              · subst hps
                simp
              · have hsp : ¬(segs = π) := fun hq => hps hq.symm
                simp [hps, hsp]
            · rw [hmc, hch, nextSegsAt_append]
              by_cases hps : π = segs
              · subst hps
                have hnn : nextSegOf π π = none := by
                  rw [nextSegOf]
                  simp [hpre, List.drop_length]
                rw [hnn]
                simp
              · have hdropne := drop_ne_nil_of_strict_extension hpreP hps
                have hnext : nextSegOf π segs = some ((segs.drop π.length).headD []) := by
                  rw [nextSegOf]
                  simp only [hpre, if_true]
                  cases hd : segs.drop π.length with
                  | nil => exact absurd hd hdropne
                  | cons a l => simp
                rw [hnext]
                simp [hps]
          · have hexF : existsAt π es = false := Bool.eq_false_iff.mpr hex
            have hnone := (ihπ π).1 hexF
            have hnone' : subtreeAt (applyData (buildFromSegs root es) d) π = none := by
              rw [subtreeAt_congr_children (applyData_children _ _) hπnil]
              exact hnone
            obtain ⟨m, hm, hmn, hmr, hmu, hmd, hmc⟩ :=
              subtreeAt_insertSegs_prefix_none d π segs _ hpreP hπnil hnone'
            refine ⟨m, hm, ?_, ?_, ?_, ?_, ?_⟩
            · rw [hmn]
              exact getLast?_getD_of_ne_nil hπnil [] root
            · rw [hmr, rbAt_append, rbAt_eq_zero hexF]
              simp [hpre]
            · rw [hmu, ubAt_append, ubAt_eq_none hexF]
              simp [hpre]
            · rw [hmd, dupAt_append, dupAt_eq_none hexF]
              by_cases hps : π = segs
              · subst hps
                simp
              · have hsp : ¬(segs = π) := fun hq => hps hq.symm
                simp [hps, hsp]
            · rw [hmc, nextSegsAt_append, nextSegsAt_eq_nil hexF]
              by_cases hps : π = segs
              · subst hps
                have hnn : nextSegOf π π = none := by
                  rw [nextSegOf]
                  simp [hpre, List.drop_length]
                rw [hnn]
                simp
              · have hdropne := drop_ne_nil_of_strict_extension hpreP hps
                have hnext : nextSegOf π segs = some ((segs.drop π.length).headD []) := by
                  rw [nextSegOf]
                  simp only [hpre, if_true]
                  cases hd : segs.drop π.length with
                  | nil => exact absurd hd hdropne
                  | cons a l => simp
                rw [hnext]
                simp [hps, addName]
      · have hpreF : π.isPrefixOf segs = false := Bool.eq_false_iff.mpr hpre
        have hpreN : ¬(π <+: segs) := fun hc =>
          hpre ( List.isPrefixOf_iff_prefix.mpr hc)
        have heq : subtreeAt (insertSegs d segs (applyData (buildFromSegs root es) d)) π
            = subtreeAt (buildFromSegs root es) π := by
          rw [subtreeAt_insertSegs_untouched d π segs _ hpreN]
          exact subtreeAt_congr_children (applyData_children _ _) hπnil
        have hex_eq : existsAt π (es ++ [(segs, d)]) = existsAt π es := by
          rw [existsAt_append, hpreF]
          simp
        have hrb_eq : rbAt π (es ++ [(segs, d)]) = rbAt π es := by
          rw [rbAt_append, hpreF]
          simp
        have hub_eq : ubAt π (es ++ [(segs, d)]) = ubAt π es := by
          rw [ubAt_append, hpreF]
          simp [truthyAdd]
        have hdup_eq : dupAt π (es ++ [(segs, d)]) = dupAt π es := by
          rw [dupAt_append]
          have hq : ¬(segs = π ∧ d.duplicate.isSome = true) := by
            rintro ⟨rfl, _⟩
            exact (ne_of_isPrefixOf_false hpreF) rfl
          simp [hq]
        have hnext_eq : nextSegsAt π (es ++ [(segs, d)]) = nextSegsAt π es := by
          rw [nextSegsAt_append]
          have hq : nextSegOf π segs = none := by
            rw [nextSegOf, hpreF]
            simp
          rw [hq]
        rw [heq, hex_eq, hrb_eq, hub_eq, hdup_eq, hnext_eq]
        exact ihπ π

set_option linter.unusedVariables false in
theorem node_ind {P : Node → Prop}
    (h : ∀ nm rb ub dup cs, (∀ c ∈ cs, P c) → P (Node.mk nm rb ub dup cs)) :
    ∀ n, P n
  | .mk nm rb ub dup cs => h nm rb ub dup cs (fun c hc => node_ind h c)
termination_by n => countList [n]
decreasing_by
  have h1 := countList_pos_of_mem hc
  simp only [countList]
  omega

@[simp] theorem allNodesList_nil : allNodesList [] = [] := by
  rw [allNodesList]

theorem allNodesList_cons (a b u dp cs2 rest) :
    allNodesList (Node.mk a b u dp cs2 :: rest) =
      Node.mk a b u dp cs2 :: (allNodesList cs2 ++ allNodesList rest) := by
  rw [allNodesList]

theorem allNodes_eq (n : Node) : allNodes n = n :: allNodesList n.children := by
  cases n with
  | mk a b u dp cs =>
    rw [allNodes, allNodesList_cons, allNodesList_nil, List.append_nil]
    rw [Node.children_mk]

theorem mem_allNodes_self (n : Node) : n ∈ allNodes n := by
  rw [allNodes_eq]
  exact List.mem_cons_self _ _

theorem mem_allNodesList : ∀ (cs : List Node) (x : Node),
    x ∈ allNodesList cs ↔ ∃ c ∈ cs, x ∈ allNodes c := by
  intro cs
  induction cs with
  | nil => simp
  | cons c rest ih =>
    intro x
    cases c with
    | mk a b u dp cs2 =>
      rw [allNodesList_cons]
      constructor
      · intro hx
        rcases List.mem_cons.mp hx with hx | hx
        · exact ⟨Node.mk a b u dp cs2, by simp, by rw [hx]; exact mem_allNodes_self _⟩
        · rcases List.mem_append.mp hx with hx | hx
          · refine ⟨Node.mk a b u dp cs2, by simp, ?_⟩
            rw [allNodes_eq]
            simp only [Node.children_mk]
            exact List.mem_cons_of_mem _ hx
          · obtain ⟨y, hy, hxy⟩ := (ih x).mp hx
            exact ⟨y, List.mem_cons_of_mem _ hy, hxy⟩
      · rintro ⟨y, hy, hxy⟩
        rcases List.mem_cons.mp hy with rfl | hy
        · rw [allNodes_eq] at hxy
          simp only [Node.children_mk] at hxy
          rcases List.mem_cons.mp hxy with rfl | hxy
          · exact List.mem_cons_self _ _
          · exact List.mem_cons_of_mem _ (List.mem_append.mpr (Or.inl hxy))
        · exact List.mem_cons_of_mem _
            (List.mem_append.mpr (Or.inr ((ih x).mpr ⟨y, hy, hxy⟩)))

theorem allNodes_sub_of_mem {c : Node} {cs : List Node} (hc : c ∈ cs) :
    ∀ x ∈ allNodes c, x ∈ allNodesList cs := by
  intro x hx
  exact (mem_allNodesList cs x).mpr ⟨c, hc, hx⟩

theorem children_mem_allNodes {t n c : Node} (hn : n ∈ allNodes t)
    (hc : c ∈ n.children) : c ∈ allNodes t := by
  induction t using node_ind with
  | h nm rb ub dup cs ih =>
    rw [allNodes_eq] at hn ⊢
    rcases List.mem_cons.mp hn with rfl | hn
    · simp only [Node.children_mk] at hc ⊢
      exact List.mem_cons_of_mem _ ((mem_allNodesList cs c).mpr
        ⟨c, hc, mem_allNodes_self c⟩)
    · simp only [Node.children_mk] at hn ⊢
      obtain ⟨y, hy, hny⟩ := (mem_allNodesList cs n).mp hn
      exact List.mem_cons_of_mem _ ((mem_allNodesList cs c).mpr
        ⟨y, hy, ih y hy hny⟩)

theorem findChild_of_mem_nodup : ∀ {cs : List Node},
    (cs.map Node.name).Nodup → ∀ {c : Node}, c ∈ cs → findChild cs c.name = some c := by
  intro cs
  induction cs with
  | nil => intro _ c hc; cases hc
  | cons x rest ih =>
    intro hnd c hc
    simp only [List.map_cons, List.nodup_cons] at hnd
    rcases List.mem_cons.mp hc with rfl | hc
    · rw [findChild_cons]
      simp
    · have hxc : x.name ≠ c.name := by
        intro heq
        exact hnd.1 (heq ▸ List.mem_map_of_mem Node.name hc)
      rw [findChild_cons]
      simp only [hxc, if_false]
      exact ih hnd.2 hc

theorem mem_allNodes_to_subtree :
    ∀ (T : Node),
      (∀ π n, subtreeAt T π = some n → (n.children.map Node.name).Nodup) →
      ∀ n', n' ∈ allNodes T → ∃ π, subtreeAt T π = some n' := by
  intro T
  induction T using node_ind with
  | h nm rb ub dup cs ih =>
    intro hnd n' hn'
    rw [allNodes_eq] at hn'
    rcases List.mem_cons.mp hn' with rfl | hn'
    · exact ⟨[], rfl⟩
    · simp only [Node.children_mk] at hn'
      obtain ⟨c, hc, hn'c⟩ := (mem_allNodesList cs n').mp hn'
      have hnd0 : (cs.map Node.name).Nodup := by
        have := hnd [] (Node.mk nm rb ub dup cs) rfl
        simpa using this
      have hfc : findChild cs c.name = some c := findChild_of_mem_nodup hnd0 hc
      have hsubc : ∀ π, subtreeAt (Node.mk nm rb ub dup cs) (c.name :: π) =
          subtreeAt c π := by
        intro π
        rw [subtreeAt_bind]
        simp only [Node.children_mk, hfc, Option.some_bind]
      have hndc : ∀ π n, subtreeAt c π = some n → (n.children.map Node.name).Nodup := by
        intro π n hπ
        exact hnd (c.name :: π) n (by rw [hsubc]; exact hπ)
      obtain ⟨π', hπ'⟩ := ih c hc hndc n' hn'c
      exact ⟨c.name :: π', by rw [hsubc]; exact hπ'⟩

theorem allNodesList_squashGo : ∀ (nm : Str) (cs : List Node),
    ∀ x ∈ allNodesList (squashGo nm cs).2, x ∈ allNodesList cs
  | nm, [Node.mk cn a b c ccs] => by
    rw [squashGo_single]
    intro x hx
    have hrec := allNodesList_squashGo (nm ++ '/' :: cn) ccs x hx
    rw [allNodesList_cons, allNodesList_nil, List.append_nil]
    exact List.mem_cons_of_mem _ hrec
  | _, [] => by
    rw [squashGo_nil]
    intro x hx
    exact hx
  | _, (a :: b :: rest) => by
    rw [squashGo_two]
    intro x hx
    exact hx
termination_by _ cs => countList cs
decreasing_by
  simp only [countList]
  omega

theorem squashGo_len : ∀ (nm : Str) (cs : List Node),
    (squashGo nm cs).2.length ≠ 1
  | nm, [Node.mk cn a b c ccs] => by
    rw [squashGo_single]
    exact squashGo_len (nm ++ '/' :: cn) ccs
  | _, [] => by simp
  | _, (a :: b :: rest) => by simp
termination_by _ cs => countList cs
decreasing_by
  simp only [countList]
  omega

theorem squashGo_of_len_ne_one (nm : Str) (cs : List Node)
    (h : cs.length ≠ 1) : squashGo nm cs = (nm, cs) := by
  cases cs with
  | nil => simp
  | cons a rest =>
    cases rest with
    | nil => simp at h
    | cons b rest2 => simp

@[simp] theorem collapseAll_resourceBytes (n : Node) :
    (collapseAll n).resourceBytes = n.resourceBytes := by
  rw [collapseAll_eq, Node.resourceBytes_mk]

@[simp] theorem collapseAll_unusedBytes (n : Node) :
    (collapseAll n).unusedBytes = n.unusedBytes := by
  rw [collapseAll_eq, Node.unusedBytes_mk]

@[simp] theorem collapseAll_duplicate (n : Node) :
    (collapseAll n).duplicate = n.duplicate := by
  rw [collapseAll_eq, Node.duplicate_mk]

theorem collapseAll_children (n : Node) :
    (collapseAll n).children = (squashGo n.name n.children).2.map collapseAll := by
  rw [collapseAll_eq, Node.children_mk]

theorem countList_squash_child {t : Node} {c : Node}
    (hc : c ∈ (squashGo t.name t.children).2) : countList [c] < countList [t] := by
  have h1 : countList [c] ≤ countList (squashGo t.name t.children).2 :=
    countList_pos_of_mem hc
  have h2 := squashGo_countList t.name t.children
  cases t with
  | mk a b u dp cs =>
    simp only [Node.name_mk, Node.children_mk] at h1 h2
    simp only [countList] at h1 h2 ⊢
    omega

/-- Every node of the collapsed tree takes its resourceBytes, unusedBytes and
duplicate fields verbatim from a node of the original tree. -/
theorem allNodes_collapseAll_fields :
    ∀ (t : Node), ∀ m ∈ allNodes (collapseAll t),
      ∃ n ∈ allNodes t, m.resourceBytes = n.resourceBytes ∧
        m.unusedBytes = n.unusedBytes ∧ m.duplicate = n.duplicate := by
  intro t
  intro m hm
  rw [allNodes_eq] at hm
  rcases List.mem_cons.mp hm with rfl | hm
  · exact ⟨t, mem_allNodes_self t, by simp, by simp, by simp⟩
  · rw [collapseAll_children] at hm
    obtain ⟨c', hc', hmc'⟩ := (mem_allNodesList _ m).mp hm
    obtain ⟨c, hc, rfl⟩ := List.mem_map.mp hc'
    obtain ⟨n, hn, hfield⟩ := allNodes_collapseAll_fields c m hmc'
    refine ⟨n, ?_, hfield⟩
    have h1 : n ∈ allNodesList (squashGo t.name t.children).2 :=
      allNodes_sub_of_mem hc n hn
    have h2 : n ∈ allNodesList t.children :=
      allNodesList_squashGo t.name t.children n h1
    rw [allNodes_eq]
    exact List.mem_cons_of_mem _ h2
termination_by t => countList [t]
decreasing_by
  exact countList_squash_child hc

/-- After collapseAll, no node at all (the root included) has exactly one
child. -/
theorem collapseAll_no_single :
    ∀ (t : Node), ∀ m ∈ allNodes (collapseAll t), m.children.length ≠ 1 := by
  intro t m hm
  rw [allNodes_eq] at hm
  rcases List.mem_cons.mp hm with rfl | hm
  · rw [collapseAll_children, List.length_map]
    exact squashGo_len t.name t.children
  · rw [collapseAll_children] at hm
    obtain ⟨c', hc', hmc'⟩ := (mem_allNodesList _ m).mp hm
    obtain ⟨c, hc, rfl⟩ := List.mem_map.mp hc'
    exact collapseAll_no_single c m hmc'
termination_by t => countList [t]
decreasing_by
  exact countList_squash_child hc

theorem map_id_of_forall {α : Type} (f : α → α) :
    ∀ (l : List α), (∀ x ∈ l, f x = x) → l.map f = l
  | [], _ => rfl
  | a :: r, h => by
    rw [List.map_cons, h a (by simp),
      map_id_of_forall f r (fun x hx => h x (by simp [hx]))]

theorem collapseAll_id_of_no_single :
    ∀ (t : Node), (∀ m ∈ allNodes t, m.children.length ≠ 1) → collapseAll t = t
  | Node.mk nm rb ub dup cs, h => by
    have hlen : cs.length ≠ 1 := by
      have := h _ (mem_allNodes_self (Node.mk nm rb ub dup cs))
      simpa using this
    rw [collapseAll_eq]
    simp only [Node.name_mk, Node.resourceBytes_mk, Node.unusedBytes_mk,
      Node.duplicate_mk, Node.children_mk]
    rw [squashGo_of_len_ne_one nm cs hlen]
    have hid : ∀ c ∈ cs, collapseAll c = c := fun c hc =>
      collapseAll_id_of_no_single c (fun m hmc => by
        apply h
        rw [allNodes_eq]
        simp only [Node.children_mk]
        exact List.mem_cons_of_mem _ (allNodes_sub_of_mem hc m hmc))
    rw [map_id_of_forall collapseAll cs hid]
termination_by t => countList [t]
decreasing_by
  have h1 := countList_pos_of_mem hc
  simp only [countList]
  omega

theorem findChild_name {cs : List Node} {seg : Str} {c : Node}
    (h : findChild cs seg = some c) : c.name = seg := by
  have := List.find?_some h
  exact of_decide_eq_true this

theorem walkNames_eq_of_subtree : ∀ (segs : List Str) (t n : Node),
    subtreeAt t segs = some n → walkNames t segs = some segs
  | [], _, _, _ => rfl
  | seg :: rest, t, n, h => by
    rw [subtreeAt_bind] at h
    cases hfc : findChild t.children seg with
    | none =>
      rw [hfc] at h
      simp at h
    | some c =>
      rw [hfc, Option.some_bind] at h
      have hcn : c.name = seg := findChild_name hfc
      rw [walkNames, hfc]
      show Option.map (fun l => c.name :: l) (walkNames c rest) = some (seg :: rest)
      rw [walkNames_eq_of_subtree rest c n h, hcn]
      rfl

theorem subtreeAt_append_eq : ∀ (π ρ : List Str) (T : Node),
    subtreeAt T (π ++ ρ) = (subtreeAt T π).bind (fun n => subtreeAt n ρ)
  | [], ρ, T => by simp
  | s :: π', ρ, T => by
    rw [List.cons_append, subtreeAt_bind, subtreeAt_bind]
    cases hfc : findChild T.children s with
    | none => simp
    | some c => simp [subtreeAt_append_eq π' ρ c]

theorem mem_addName {l : List Str} {s x : Str} :
    x ∈ addName l s ↔ x ∈ l ∨ x = s := by
  rw [addName]
  split
  · rename_i h
    constructor
    · exact Or.inl
    · rintro (hx | rfl)
      · exact hx
      · exact h
  · simp

theorem addName_nodup {l : List Str} {s : Str} (h : l.Nodup) :
    (addName l s).Nodup := by
  rw [addName]
  split
  · exact h
  · rename_i hs
    simp [List.nodup_append, h, hs]

theorem nextSegs_foldl_nodup (pi : List Str) :
    ∀ (es : List (List Str × SourceData)) (acc : List Str), acc.Nodup →
      (es.foldl
        (fun acc e =>
          match nextSegOf pi e.1 with
          | some s => addName acc s
          | none => acc) acc).Nodup
  | [], _, h => h
  | e :: es2, acc, h => by
    rw [List.foldl_cons]
    cases hns : nextSegOf pi e.1 with
    | none => exact nextSegs_foldl_nodup pi es2 acc h
    | some s => exact nextSegs_foldl_nodup pi es2 (addName acc s) (addName_nodup h)

theorem nextSegsAt_nodup (pi : List Str) (es : List (List Str × SourceData)) :
    (nextSegsAt pi es).Nodup := by
  rw [nextSegsAt]
  exact nextSegs_foldl_nodup pi es [] List.nodup_nil

theorem mem_nextSegs_foldl (pi : List Str) :
    ∀ (es : List (List Str × SourceData)) (acc : List Str) (x : Str),
      x ∈ es.foldl
        (fun acc e =>
          match nextSegOf pi e.1 with
          | some s => addName acc s
          | none => acc) acc
      ↔ x ∈ acc ∨ ∃ e ∈ es, nextSegOf pi e.1 = some x
  | [], acc, x => by simp
  | e :: es2, acc, x => by
    rw [List.foldl_cons]
    cases hns : nextSegOf pi e.1 with
    | none =>
      rw [mem_nextSegs_foldl pi es2 acc x]
      constructor
      · rintro (hx | ⟨e2, he2, hx⟩)
        · exact Or.inl hx
        · exact Or.inr ⟨e2, List.mem_cons_of_mem _ he2, hx⟩
      · rintro (hx | ⟨e2, he2, hx⟩)
        · exact Or.inl hx
        · rcases List.mem_cons.mp he2 with rfl | he2
          · rw [hns] at hx
            cases hx
          · exact Or.inr ⟨e2, he2, hx⟩
    | some s =>
      rw [mem_nextSegs_foldl pi es2 (addName acc s) x, mem_addName]
      constructor
      · rintro ((hx | rfl) | ⟨e2, he2, hx⟩)
        · exact Or.inl hx
        · exact Or.inr ⟨e, by simp, hns⟩
        · exact Or.inr ⟨e2, List.mem_cons_of_mem _ he2, hx⟩
      · rintro (hx | ⟨e2, he2, hx⟩)
        · exact Or.inl (Or.inl hx)
        · rcases List.mem_cons.mp he2 with rfl | he2
          · rw [hns] at hx
            cases hx
            exact Or.inl (Or.inr rfl)
          · exact Or.inr ⟨e2, he2, hx⟩

theorem mem_nextSegsAt {pi : List Str} {es : List (List Str × SourceData)} {x : Str} :
    x ∈ nextSegsAt pi es ↔ ∃ e ∈ es, nextSegOf pi e.1 = some x := by
  rw [nextSegsAt, mem_nextSegs_foldl]
  simp

theorem buildFromSegs_names_nodup (root : Str) (es : List (List Str × SourceData))
    (hne : ∀ e ∈ es, e.1 ≠ []) :
    ∀ π n, subtreeAt (buildFromSegs root es) π = some n →
      (n.children.map Node.name).Nodup := by
  intro π n h
  cases hb : existsAt π es with
  | false =>
    have := (buildFromSegs_char root es hne π).1 hb
    rw [h] at this
    cases this
  | true =>
    obtain ⟨n2, hn2, _, _, _, _, hch⟩ := (buildFromSegs_char root es hne π).2 hb
    rw [h] at hn2
    cases hn2
    rw [hch]
    exact nextSegsAt_nodup π es

theorem child_subtree {root : Str} {es : List (List Str × SourceData)}
    (hne : ∀ e ∈ es, e.1 ≠ []) {π : List Str} {n : Node}
    (hn : subtreeAt (buildFromSegs root es) π = some n) :
    ∀ c ∈ n.children, subtreeAt (buildFromSegs root es) (π ++ [c.name]) = some c := by
  intro c hc
  rw [subtreeAt_append_eq, hn, Option.some_bind, subtreeAt_bind]
  have hnd : (n.children.map Node.name).Nodup :=
    buildFromSegs_names_nodup root es hne π n hn
  rw [findChild_of_mem_nodup hnd hc]
  simp

theorem sum_ite_single {K : Type} [DecidableEq K] (x : K) (v : Nat) (g : K → Nat) :
    ∀ (keys : List K), keys.Nodup → x ∈ keys →
      (keys.map (fun k => if x = k then v + g k else g k)).sum
        = v + (keys.map g).sum
  | [], _, hx => absurd hx (List.not_mem_nil x)
  | k :: ks, hnd, hx => by
    simp only [List.map_cons, List.sum_cons]
    rw [List.nodup_cons] at hnd
    rcases List.mem_cons.mp hx with rfl | hx2
    · rw [if_pos rfl]
      have hmap : ks.map (fun k2 => if x = k2 then v + g k2 else g k2) = ks.map g := by
        apply List.map_congr_left
        intro k2 hk2
        have hq : ¬(x = k2) := fun heq => hnd.1 (heq ▸ hk2)
        rw [if_neg hq]
      rw [hmap]
      omega
    · have hxk : ¬(x = k) := by
        intro heq
        subst heq
        exact hnd.1 hx2
      rw [if_neg hxk, sum_ite_single x v g ks hnd.2 hx2]
      omega

theorem sum_fiber {K A : Type} [DecidableEq K] (key : A → K) (w : A → Nat)
    (keys : List K) (hnd : keys.Nodup) :
    ∀ (l : List A), (∀ a ∈ l, key a ∈ keys) →
      (keys.map (fun k => ((l.filter (fun a => key a = k)).map w).sum)).sum
        = (l.map w).sum
  | [], _ => by
    simp
  | a :: l, hcov => by
    have hmap : keys.map (fun k => (((a :: l).filter (fun x => key x = k)).map w).sum)
        = keys.map (fun k =>
            if key a = k then w a + ((l.filter (fun x => key x = k)).map w).sum
            else ((l.filter (fun x => key x = k)).map w).sum) := by
      apply List.map_congr_left
      intro k _
      by_cases h : key a = k <;> simp [List.filter_cons, h]
    rw [hmap, sum_ite_single (key a) (w a) _ keys hnd (hcov a (by simp)),
      sum_fiber key w keys hnd l (fun x hx => hcov x (by simp [hx]))]
    simp

theorem nextSegOf_eq_some_iff {pi q : List Str} {s : Str} :
    nextSegOf pi q = some s ↔ (pi ++ [s]) <+: q := by
  rw [nextSegOf]
  by_cases h : pi.isPrefixOf q = true
  · rw [if_pos h]
    obtain ⟨u, rfl⟩ := List.isPrefixOf_iff_prefix.mp h
    rw [List.drop_left]
    constructor
    · intro hu
      cases u with
      | nil => simp at hu
      | cons a u2 =>
        simp only [List.head?_cons, Option.some.injEq] at hu
        subst hu
        exact ⟨u2, by simp⟩
    · rintro ⟨v, hv⟩
      rw [List.append_assoc] at hv
      have huv : [s] ++ v = u := List.append_cancel_left hv
      rw [← huv]
      simp
  · rw [if_neg h]
    constructor
    · intro hc
      cases hc
    · intro hc
      have : pi <+: q := List.IsPrefix.trans ⟨[s], rfl⟩ hc
      exact absurd ( List.isPrefixOf_iff_prefix.mpr this) h

theorem rbAt_eq_wSum (pi : List Str) (es) :
    rbAt pi es = wSumAt (fun d => d.resourceBytes) pi es := rfl

theorem ubSumAt_eq_wSum (pi : List Str) (es) :
    ubSumAt pi es = wSumAt (fun d => d.unusedBytes.getD 0) pi es := rfl

theorem nextSegOf_self (π : List Str) : nextSegOf π π = none := by
  rw [nextSegOf,
    if_pos ( List.isPrefixOf_iff_prefix.mpr (List.prefix_refl π)),
    List.drop_length]
  rfl

theorem nextSegOf_isSome_prefixOf {π q : List Str}
    (h : (nextSegOf π q).isSome = true) : π.isPrefixOf q = true := by
  by_contra hc
  have hf : π.isPrefixOf q = false := Bool.eq_false_iff.mpr hc
  rw [nextSegOf, hf] at h
  simp at h

theorem wSumAt_children (w : SourceData → Nat) (π : List Str)
    (es : List (List Str × SourceData)) (hnp : NoProperPrefix es)
    (e0 : List Str × SourceData) (he0 : e0 ∈ es)
    (he0s : (nextSegOf π e0.1).isSome = true) :
    ((nextSegsAt π es).map (fun s => wSumAt w (π ++ [s]) es)).sum
      = wSumAt w π es := by
  have hkeysnd : ((nextSegsAt π es).map some).Nodup :=
    List.Nodup.map (Option.some_injective Str) (nextSegsAt_nodup π es)
  have hcov : ∀ a ∈ es.filter (fun e => (nextSegOf π e.1).isSome),
      nextSegOf π a.1 ∈ (nextSegsAt π es).map some := by
    intro a ha
    obtain ⟨haes, hasome⟩ := List.mem_filter.mp ha
    cases hq : nextSegOf π a.1 with
    | none => rw [hq] at hasome; simp at hasome
    | some s =>
      exact List.mem_map_of_mem some (mem_nextSegsAt.mpr ⟨a, haes, hq⟩)
  have hfiber := sum_fiber (fun e => nextSegOf π e.1) (fun e => w e.2)
    ((nextSegsAt π es).map some) hkeysnd
    (es.filter (fun e => (nextSegOf π e.1).isSome)) hcov
  -- identify each fiber with the entries through the extended position
  have hterm : ∀ s ∈ nextSegsAt π es,
      (((es.filter (fun e => (nextSegOf π e.1).isSome)).filter
          (fun a => nextSegOf π a.1 = some s)).map (fun e => w e.2)).sum
        = wSumAt w (π ++ [s]) es := by
    intro s _
    rw [List.filter_filter]
    have hfe : es.filter
          (fun e => decide (nextSegOf π e.1 = some s) && (nextSegOf π e.1).isSome)
        = entriesThrough (π ++ [s]) es := by
      rw [entriesThrough]
      apply List.filter_congr
      intro e _
      by_cases hq : nextSegOf π e.1 = some s
      · rw [hq]
        simp [ List.isPrefixOf_iff_prefix.mpr (nextSegOf_eq_some_iff.mp hq)]
      · cases hb : (π ++ [s]).isPrefixOf e.1
        · simp [hq]
        · exact absurd (nextSegOf_eq_some_iff.mpr ( List.isPrefixOf_iff_prefix.mp hb)) hq
    rw [hfe]
    rfl
  have hmain : es.filter (fun e => (nextSegOf π e.1).isSome)
      = entriesThrough π es := by
    rw [entriesThrough]
    apply List.filter_congr
    intro e he
    cases hb : π.isPrefixOf e.1
    · rw [nextSegOf, hb]
      simp
    · have hpre : π <+: e.1 := List.isPrefixOf_iff_prefix.mp hb
      obtain ⟨u, hu⟩ := hpre
      cases hu2 : u with
      | nil =>
        subst hu2
        rw [List.append_nil] at hu
        have hpe0 : π.isPrefixOf e0.1 = true := nextSegOf_isSome_prefixOf he0s
        have he1e0 : e.1 <+: e0.1 := by
          rw [← hu]
          exact List.isPrefixOf_iff_prefix.mp hpe0
        have heq := hnp e he e0 he0 he1e0
        rw [← hu] at heq
        rw [← heq] at he0s
        rw [nextSegOf_self] at he0s
        simp at he0s
      | cons a u2 =>
        subst hu2
        have : nextSegOf π e.1 = some a := by
          apply nextSegOf_eq_some_iff.mpr
          exact ⟨u2, by rw [← hu]; simp⟩
        rw [this]
        simp
  rw [hmain] at hfiber
  have hgoal : wSumAt w π es = (List.map (fun e => w e.2) (entriesThrough π es)).sum := rfl
  rw [hgoal, ← hfiber, List.map_map]
  congr 1
  apply List.map_congr_left
  intro s hs
  have h2 := hterm s hs
  rw [hmain] at h2
  simp only [Function.comp_apply]
  exact h2.symm

theorem ubAt_getD (pi : List Str) (es : List (List Str × SourceData)) :
    (ubAt pi es).getD 0 = ubSumAt pi es := by
  rw [ubAt]
  by_cases h : ubSumAt pi es = 0 <;> simp [h]

theorem buildFromSegs_strongOk (root : Str) (es : List (List Str × SourceData))
    (hne : ∀ e ∈ es, e.1 ≠ []) (hnp : NoProperPrefix es) :
    ∀ π n, subtreeAt (buildFromSegs root es) π = some n → strongOk n := by
  intro π n hn
  cases hb : existsAt π es with
  | false =>
    have := (buildFromSegs_char root es hne π).1 hb
    rw [hn] at this
    cases this
  | true =>
    obtain ⟨n2, hn2, hname, hrb, hub, hdup, hch⟩ :=
      (buildFromSegs_char root es hne π).2 hb
    rw [hn] at hn2
    injection hn2 with hnn
    subst hnn
    constructor
    · rw [hub, ubAt]
      by_cases h0 : ubSumAt π es = 0 <;> simp [h0]
    · intro hchne
      have hnames : nextSegsAt π es ≠ [] := by
        rw [← hch]
        intro hq
        rw [List.map_eq_nil_iff] at hq
        exact hchne hq
      obtain ⟨s0, hs0⟩ := List.exists_mem_of_ne_nil _ hnames
      obtain ⟨e0, he0, he0some⟩ := mem_nextSegsAt.mp hs0
      have he0s : (nextSegOf π e0.1).isSome = true := by
        rw [he0some]
        rfl
      have hcrb : ∀ c ∈ n.children, c.resourceBytes = rbAt (π ++ [c.name]) es := by
        intro c hc
        have hcsub := child_subtree hne hn c hc
        cases hb2 : existsAt (π ++ [c.name]) es with
        | false =>
          have h4 := (buildFromSegs_char root es hne (π ++ [c.name])).1 hb2
          rw [hcsub] at h4
          cases h4
        | true =>
          obtain ⟨n3, hn3, _, hrb3, _, _, _⟩ :=
            (buildFromSegs_char root es hne (π ++ [c.name])).2 hb2
          rw [hcsub] at hn3
          injection hn3 with h3
          rw [← h3] at hrb3
          exact hrb3
      have hcub : ∀ c ∈ n.children,
          (Node.unusedBytes c).getD 0 = ubSumAt (π ++ [c.name]) es := by
        intro c hc
        have hcsub := child_subtree hne hn c hc
        cases hb2 : existsAt (π ++ [c.name]) es with
        | false =>
          have h4 := (buildFromSegs_char root es hne (π ++ [c.name])).1 hb2
          rw [hcsub] at h4
          cases h4
        | true =>
          obtain ⟨n3, hn3, _, _, hub3, _, _⟩ :=
            (buildFromSegs_char root es hne (π ++ [c.name])).2 hb2
          rw [hcsub] at hn3
          injection hn3 with h3
          rw [← h3] at hub3
          rw [hub3, ubAt_getD]
      constructor
      · rw [hrb, childrenSumRB]
        have hm1 : n.children.map Node.resourceBytes
            = (n.children.map Node.name).map (fun s => rbAt (π ++ [s]) es) := by
          rw [List.map_map]
          apply List.map_congr_left
          intro c hc
          simp only [Function.comp_apply]
          exact hcrb c hc
        rw [hm1, hch]
        exact (wSumAt_children (fun d => d.resourceBytes) π es hnp e0 he0 he0s).symm
      · rw [hub, childrenSumUB]
        have hm2 : n.children.map (fun c => (Node.unusedBytes c).getD 0)
            = (n.children.map Node.name).map (fun s => ubSumAt (π ++ [s]) es) := by
          rw [List.map_map]
          apply List.map_congr_left
          intro c hc
          simp only [Function.comp_apply]
          exact hcub c hc
        rw [hm2, hch]
        have hsum := wSumAt_children (fun d => d.unusedBytes.getD 0) π es hnp e0 he0 he0s
        have hsum2 : ((nextSegsAt π es).map (fun s => ubSumAt (π ++ [s]) es)).sum
            = ubSumAt π es := hsum
        rw [hsum2]
        rfl

theorem segsEntries_ne_nil (root : Str) (l : List (Str × SourceData)) :
    ∀ e ∈ segsEntries root l, e.1 ≠ [] := by
  intro e he
  rw [segsEntries] at he
  obtain ⟨x, _, rfl⟩ := List.mem_map.mp he
  exact splitSlashes_ne_nil _

theorem buildFromSegs_strongOk_allNodes (root : Str) (es : List (List Str × SourceData))
    (hne : ∀ e ∈ es, e.1 ≠ []) (hnp : NoProperPrefix es) :
    ∀ m ∈ allNodes (buildFromSegs root es), strongOk m := by
  intro m hm
  obtain ⟨π, hπ⟩ := mem_allNodes_to_subtree _
    (buildFromSegs_names_nodup root es hne) m hm
  exact buildFromSegs_strongOk root es hne hnp π m hπ

theorem opt_ite_getD {x : Option Nat} (hx : x ≠ some 0) :
    (if x.getD 0 = 0 then none else some (x.getD 0)) = x := by
  cases x with
  | none => simp
  | some k =>
    have hk : k ≠ 0 := fun h => hx (by rw [h])
    simp [hk]

theorem squashGo_sums : ∀ (nm : Str) (cs : List Node) (rb : Nat) (ub : Option Nat),
    (∀ m ∈ allNodesList cs, strongOk m) →
    (cs ≠ [] →
      rb = (cs.map Node.resourceBytes).sum ∧
      ub = (if ((cs.map (fun c => (Node.unusedBytes c).getD 0)).sum) = 0 then none
            else some ((cs.map (fun c => (Node.unusedBytes c).getD 0)).sum))) →
    ((squashGo nm cs).2 ≠ [] →
      rb = (((squashGo nm cs).2).map Node.resourceBytes).sum ∧
      ub = (if ((((squashGo nm cs).2).map
              (fun c => (Node.unusedBytes c).getD 0)).sum) = 0
            then none
            else some ((((squashGo nm cs).2).map
              (fun c => (Node.unusedBytes c).getD 0)).sum)))
  | nm, [Node.mk cn cb cu cd ccs], rb, ub, hok, hsum => by
    rw [squashGo_single]
    have hcok : strongOk (Node.mk cn cb cu cd ccs) := by
      apply hok
      rw [allNodesList_cons]
      simp
    have h1 := hsum (by simp)
    apply squashGo_sums (nm ++ '/' :: cn) ccs rb ub
    · intro m hm
      apply hok
      rw [allNodesList_cons, allNodesList_nil, List.append_nil]
      exact List.mem_cons_of_mem _ hm
    · intro hccs
      have h2 := hcok.2 (by simpa using hccs)
      simp only [childrenSumRB, childrenSumUB, Node.children_mk,
        Node.resourceBytes_mk, Node.unusedBytes_mk] at h2
      simp only [List.map_cons, List.map_nil, List.sum_cons, List.sum_nil,
        Node.resourceBytes_mk, Node.unusedBytes_mk, Nat.add_zero] at h1
      have hcu0 : cu ≠ some 0 := by simpa using hcok.1
      constructor
      · rw [h1.1]
        exact h2.1
      · rw [h1.2, opt_ite_getD hcu0]
        exact h2.2
  | nm, [], rb, ub, hok, hsum => by
    rw [squashGo_nil]
    exact hsum
  | nm, a :: b :: rest, rb, ub, hok, hsum => by
    rw [squashGo_two]
    exact hsum
termination_by _ cs => countList cs
decreasing_by
  simp only [countList]
  omega

theorem strongOk_collapseAll :
    ∀ (t : Node), (∀ m ∈ allNodes t, strongOk m) →
      ∀ m ∈ allNodes (collapseAll t), strongOk m := by
  intro t hok m hm
  rw [allNodes_eq] at hm
  rcases List.mem_cons.mp hm with rfl | hm
  · have htok := hok t (mem_allNodes_self t)
    constructor
    · rw [collapseAll_unusedBytes]
      exact htok.1
    · intro hchne
      rw [collapseAll_children] at hchne
      simp only [childrenSumRB, childrenSumUB, collapseAll_children]
      have hrbmap : ((squashGo t.name t.children).2.map collapseAll).map Node.resourceBytes
          = (squashGo t.name t.children).2.map Node.resourceBytes := by
        rw [List.map_map]
        apply List.map_congr_left
        intro c _
        simp [Function.comp_apply]
      have hubmap : ((squashGo t.name t.children).2.map collapseAll).map
            (fun c => (Node.unusedBytes c).getD 0)
          = (squashGo t.name t.children).2.map (fun c => (Node.unusedBytes c).getD 0) := by
        rw [List.map_map]
        apply List.map_congr_left
        intro c _
        simp [Function.comp_apply]
      have hp2ne : (squashGo t.name t.children).2 ≠ [] := by
        intro hq
        rw [hq] at hchne
        simp at hchne
      have hchok : ∀ m2 ∈ allNodesList t.children, strongOk m2 := by
        intro m2 hm2
        apply hok
        rw [allNodes_eq]
        exact List.mem_cons_of_mem _ hm2
      have htop : t.children ≠ [] →
          t.resourceBytes = (t.children.map Node.resourceBytes).sum ∧
          t.unusedBytes = (if ((t.children.map (fun c => (Node.unusedBytes c).getD 0)).sum) = 0
            then none
            else some ((t.children.map (fun c => (Node.unusedBytes c).getD 0)).sum)) := by
        intro hne2
        have := htok.2 hne2
        simp only [childrenSumRB, childrenSumUB] at this
        exact this
      have hsq := squashGo_sums t.name t.children t.resourceBytes t.unusedBytes
        hchok htop hp2ne
      constructor
      · rw [collapseAll_resourceBytes, hrbmap]
        exact hsq.1
      · rw [collapseAll_unusedBytes, hubmap]
        exact hsq.2
  · rw [collapseAll_children] at hm
    obtain ⟨c', hc', hmc'⟩ := (mem_allNodesList _ m).mp hm
    obtain ⟨c, hc, rfl⟩ := List.mem_map.mp hc'
    apply strongOk_collapseAll c _ m hmc'
    intro m2 hm2
    apply hok
    rw [allNodes_eq]
    apply List.mem_cons_of_mem
    exact allNodesList_squashGo t.name t.children m2
      (allNodes_sub_of_mem hc m2 hm2)
termination_by t => countList [t]
decreasing_by
  exact countList_squash_child hc

theorem balanced_of_strongOk {T : Node} (h : ∀ m ∈ allNodes T, strongOk m) :
    ∀ m ∈ allNodes T, m.children ≠ [] →
      m.resourceBytes = childrenSumRB m ∧
      ((∃ c ∈ m.children, (Node.unusedBytes c).isSome = true) →
        m.unusedBytes = some (childrenSumUB m)) := by
  intro m hm hch
  have hsm := h m hm
  refine ⟨(hsm.2 hch).1, ?_⟩
  rintro ⟨c, hc, hcu⟩
  have hsc := h c (children_mem_allNodes hm hc)
  have hcnz : (Node.unusedBytes c).getD 0 ≠ 0 := by
    cases hq : Node.unusedBytes c with
    | none => rw [hq] at hcu; simp at hcu
    | some k =>
      have : k ≠ 0 := fun h0 => hsc.1 (by rw [hq, h0])
      simpa using this
  have hle : (Node.unusedBytes c).getD 0 ≤ childrenSumUB m := by
    rw [childrenSumUB]
    exact List.single_le_sum (fun y _ => Nat.zero_le y) _
      (List.mem_map_of_mem _ hc)
  have hnz : childrenSumUB m ≠ 0 := by omega
  rw [(hsm.2 hch).2]
  simp [hnz]

theorem foldl_dup_acc (pi : List Str) :
    ∀ (es : List (List Str × SourceData)) (a : Option Str) (k : Str),
      es.foldl
        (fun a e => if e.1 = pi ∧ e.2.duplicate.isSome = true then e.2.duplicate else a)
        a = some k →
      a = some k ∨ ∃ e ∈ es, e.1 = pi ∧ e.2.duplicate = some k
  | [], _, _, h => Or.inl h
  | e :: es2, a, k, h => by
    rw [List.foldl_cons] at h
    by_cases hc : e.1 = pi ∧ e.2.duplicate.isSome = true
    · rw [if_pos hc] at h
      rcases foldl_dup_acc pi es2 _ k h with h2 | ⟨e2, he2, h2⟩
      · exact Or.inr ⟨e, by simp, hc.1, h2⟩
      · exact Or.inr ⟨e2, by simp [he2], h2⟩
    · rw [if_neg hc] at h
      rcases foldl_dup_acc pi es2 a k h with h2 | ⟨e2, he2, h2⟩
      · exact Or.inl h2
      · exact Or.inr ⟨e2, by simp [he2], h2⟩

theorem dupAt_some {pi : List Str} {es : List (List Str × SourceData)} {k : Str}
    (h : dupAt pi es = some k) :
    ∃ e ∈ es, e.1 = pi ∧ e.2.duplicate = some k := by
  rw [dupAt] at h
  rcases foldl_dup_acc pi es none k h with h2 | h2
  · cases h2
  · exact h2

theorem ubSumAt_ne_zero_iff {pi : List Str} {es : List (List Str × SourceData)} :
    ubSumAt pi es ≠ 0 ↔
      ∃ e ∈ es, pi.isPrefixOf e.1 = true ∧ e.2.unusedBytes.getD 0 ≠ 0 := by
  rw [ubSumAt, entriesThrough, Ne, List.sum_eq_zero_iff]
  constructor
  · intro h
    by_contra hall
    apply h
    intro x hx
    obtain ⟨e, he, rfl⟩ := List.mem_map.mp hx
    obtain ⟨hees, hepre⟩ := List.mem_filter.mp he
    by_contra hxne
    exact hall ⟨e, hees, hepre, hxne⟩
  · rintro ⟨e, hees, hepre, hne⟩ hall
    exact hne (hall _ (List.mem_map_of_mem _ (List.mem_filter.mpr ⟨hees, hepre⟩)))

theorem ubAt_isSome_iff {pi : List Str} {es : List (List Str × SourceData)} :
    (ubAt pi es).isSome = true ↔ ubSumAt pi es ≠ 0 := by
  rw [ubAt]
  by_cases h : ubSumAt pi es = 0 <;> simp [h]

theorem ubAt_ne_some_zero (pi : List Str) (es : List (List Str × SourceData)) :
    ubAt pi es ≠ some 0 := by
  rw [ubAt]
  by_cases h : ubSumAt pi es = 0 <;> simp [h]

theorem mem_segsEntries {root : Str} {sourcesData : List (Str × SourceData)}
    {e : List Str × SourceData} :
    e ∈ segsEntries root sourcesData ↔
      ∃ x ∈ sourcesData, e = (segmentsOf root (normalizeKey x.1), x.2) := by
  rw [segsEntries, List.mem_map]
  constructor
  · rintro ⟨x, hx, rfl⟩
    exact ⟨x, hx, rfl⟩
  · rintro ⟨x, hx, rfl⟩
    exact ⟨x, hx, rfl⟩

/-- C7: after collapseAll has run, no node in the tree returned by
prepareTreemapNodes has exactly one child (in fact not even the root does,
which implies the claim, whose exception clause is only a possibility). -/
theorem C7_no_single_child (sourceRoot : Str) (sourcesData : List (Str × SourceData)) :
    ∀ m ∈ allNodes (prepareTreemapNodes sourceRoot sourcesData),
      m.children.length ≠ 1 := by
  intro m hm
  exact collapseAll_no_single _ m hm

/-- Witness for C7 at a concrete input: the single collapsed node of the
one-path tree has zero children, not one. -/
theorem C7_no_single_child_witness :
    (Node.mk (str "/x/y/z.js") 10 (some 5) none []).children.length ≠ 1 := by
  have hP : prepareTreemapNodes [] [(str "x/y/z.js", ⟨10, some 5, none⟩)]
      = Node.mk (str "/x/y/z.js") 10 (some 5) none [] := by
    rw [prepareTreemapNodes]
    have h : buildTree [] [(str "x/y/z.js", ⟨10, some 5, none⟩)]
        = Node.mk [] 10 (some 5) none
            [Node.mk (str "x") 10 (some 5) none
              [Node.mk (str "y") 10 (some 5) none
                [Node.mk (str "z.js") 10 (some 5) none []]]] := rfl
    rw [h, collapseAll_eq]
    simp [str]
  apply C7_no_single_child [] [(str "x/y/z.js", ⟨10, some 5, none⟩)]
  rw [hP]
  exact mem_allNodes_self _

/-- C8: collapseAll is idempotent: applying the chain compression twice
yields the same tree as applying it once, for every tree. -/
theorem C8_collapse_idempotent (t : Node) :
    collapseAll (collapseAll t) = collapseAll t :=
  collapseAll_id_of_no_single _ (collapseAll_no_single t)

/-- C10: on an empty sources mapping, prepareTreemapNodes does not fail and
returns a single childless node named with the root prefix, resourceBytes 0,
no unusedBytes and no duplicate field. -/
theorem C10_empty_mapping_total (sourceRoot : Str) :
    prepareTreemapNodes sourceRoot [] = Node.mk sourceRoot 0 none none [] := by
  rw [prepareTreemapNodes]
  have hb : buildTree sourceRoot [] = Node.mk sourceRoot 0 none none [] := rfl
  rw [hb, collapseAll_eq]
  simp

/-- C5 counterexample: sourceRoot b is not a prefix of path ab, yet the
stripping step (the replace call of line 96) changes the path, because a JS
string replace removes the first occurrence anywhere, not only a leading
prefix. -/
theorem C5_counterexample :
    List.isPrefixOf (str "b") (str "ab") = false ∧
    removeFirstOcc (str "ab") (str "b") ≠ str "ab" := by
  decide

/-- C5 amended: the stripping step removes the first occurrence of
sourceRoot anywhere in the path; a path in which sourceRoot does not occur at
all as a substring is left unchanged before splitting. -/
theorem C5_strip_no_occurrence_amended (sourceRoot source : Str)
    (h : occursIn source sourceRoot = false) :
    removeFirstOcc source sourceRoot = source ∧
    segmentsOf sourceRoot source = splitSlashes source := by
  have h1 := removeFirstOcc_of_not_occursIn h
  exact ⟨h1, by rw [segmentsOf, h1]⟩

/-- Witness for C5 at a concrete input. -/
theorem C5_strip_no_occurrence_amended_witness :
    occursIn (str "a/b") (str "src") = false ∧
    removeFirstOcc (str "a/b") (str "src") = str "a/b" ∧
    segmentsOf (str "src") (str "a/b") = splitSlashes (str "a/b") :=
  ⟨by decide, (C5_strip_no_occurrence_amended (str "src") (str "a/b") (by decide)).1,
    (C5_strip_no_occurrence_amended (str "src") (str "a/b") (by decide)).2⟩

/-- C4 counterexample: with sourceRoot b and source path ab, the stripping
step removes the b in the middle, the uncompressed tree has a single child
named a under the root, and concatenating the root prefix with the walk names
gives ba, not the original path ab. -/
theorem C4_counterexample :
    (buildTree (str "b") [(str "ab", ⟨1, none, none⟩)]).children.map Node.name
      = [str "a"] ∧
    str "b" ++ joinSegs (segmentsOf (str "b") (str "ab")) = str "ba" ∧
    (str "ba" : Str) ≠ str "ab" := by
  decide

/-- C4 amended: for an input path of which sourceRoot is an actual leading
prefix and whose remainder has no run of two or more slashes (so that the
first-occurrence replace of line 96 strips exactly the prefix and the
slash-run split loses nothing), the walk of the uncompressed tree along the
path segments exists, its node names are exactly those segments, and
prepending sourceRoot to their slash-join reproduces the original path. -/
theorem C4_path_reconstruction_amended (sourceRoot : Str)
    (sourcesData : List (Str × SourceData)) (s : Str) (d : SourceData)
    (hmem : (s, d) ∈ sourcesData) (hs : s ≠ [])
    (hpre : sourceRoot.isPrefixOf s = true)
    (hnds : noDoubleSlash (s.drop sourceRoot.length) = true) :
    sourceRoot ++ joinSegs (segmentsOf sourceRoot s) = s ∧
    walkNames (buildTree sourceRoot sourcesData) (segmentsOf sourceRoot s)
      = some (segmentsOf sourceRoot s) := by
  constructor
  · exact reconstruct_of_prefix_noDoubleSlash hpre hnds
  · have hne := segsEntries_ne_nil sourceRoot sourcesData
    rw [buildTree_eq_buildFromSegs]
    have hmem2 : (segmentsOf sourceRoot s, d) ∈ segsEntries sourceRoot sourcesData := by
      apply mem_segsEntries.mpr
      refine ⟨(s, d), hmem, ?_⟩
      rw [normalizeKey, if_neg hs]
    have hexm : existsAt (segmentsOf sourceRoot s) (segsEntries sourceRoot sourcesData)
        = true := by
      rw [existsAt, Bool.or_eq_true, List.any_eq_true]
      exact Or.inr ⟨(segmentsOf sourceRoot s, d), hmem2,
        List.isPrefixOf_iff_prefix.mpr (List.prefix_refl _)⟩
    obtain ⟨n, hn, _⟩ :=
      (buildFromSegs_char sourceRoot _ hne (segmentsOf sourceRoot s)).2 hexm
    exact walkNames_eq_of_subtree _ _ n hn

/-- Witness for C4 at a concrete input. -/
theorem C4_path_reconstruction_amended_witness :
    ([] : Str) ++ joinSegs (segmentsOf [] (str "a/b.js")) = str "a/b.js" ∧
    walkNames (buildTree [] [(str "a/b.js", ⟨7, none, none⟩)])
        (segmentsOf [] (str "a/b.js"))
      = some (segmentsOf [] (str "a/b.js")) :=
  C4_path_reconstruction_amended [] [(str "a/b.js", ⟨7, none, none⟩)]
    (str "a/b.js") ⟨7, none, none⟩ (by simp) (by decide) (by decide) (by decide)

/-- C2 counterexample: the uncompressed tree of the single source a/b has a
leaf carrying duplicate key k, but after collapseAll the returned tree (one
merged node) has no node carrying any duplicate key: the absorbed leaf's
fields are dropped, not preserved. -/
theorem C2_counterexample :
    (allNodes (buildTree [] [(str "a/b", ⟨10, none, some (str "k")⟩)])).map
        Node.duplicate
      = [none, none, some (str "k")] ∧
    (allNodes (prepareTreemapNodes [] [(str "a/b", ⟨10, none, some (str "k")⟩)])).map
        Node.duplicate
      = [none] := by
  have hb : buildTree [] [(str "a/b", ⟨10, none, some (str "k")⟩)]
      = Node.mk [] 10 none none
          [Node.mk (str "a") 10 none none
            [Node.mk (str "b") 10 none (some (str "k")) []]] := rfl
  constructor
  · rw [hb]
    rw [allNodes, allNodesList_cons, allNodesList_cons, allNodesList_cons]
    simp
  · have hP : prepareTreemapNodes [] [(str "a/b", ⟨10, none, some (str "k")⟩)]
        = Node.mk (str "/a/b") 10 none none [] := by
      rw [prepareTreemapNodes, hb, collapseAll_eq]
      simp [str]
    rw [hP, allNodes, allNodesList_cons]
    simp

/-- C2 amended: collapseAll rewrites only names and children pointers: every
node of the final compressed tree carries resourceBytes, unusedBytes and
duplicate verbatim from some node of the uncompressed tree; but a leaf that
is absorbed into a single-child chain disappears from the tree, and its
fields (in particular its duplicate key) are not transferred to the merged
node, which keeps the chain-top ancestor's fields. -/
theorem C2_leaf_preservation_amended (sourceRoot : Str)
    (sourcesData : List (Str × SourceData)) :
    ∀ m ∈ allNodes (prepareTreemapNodes sourceRoot sourcesData),
      ∃ n ∈ allNodes (buildTree sourceRoot sourcesData),
        m.resourceBytes = n.resourceBytes ∧ m.unusedBytes = n.unusedBytes ∧
        m.duplicate = n.duplicate := by
  intro m hm
  exact allNodes_collapseAll_fields _ m hm

/-- Witness for C2 at a concrete input. -/
theorem C2_leaf_preservation_amended_witness :
    ∃ n ∈ allNodes (buildTree [] [(str "a", ⟨1, none, none⟩),
        (str "b", ⟨2, none, none⟩)]),
      (prepareTreemapNodes [] [(str "a", ⟨1, none, none⟩),
          (str "b", ⟨2, none, none⟩)]).resourceBytes = n.resourceBytes ∧
      (prepareTreemapNodes [] [(str "a", ⟨1, none, none⟩),
          (str "b", ⟨2, none, none⟩)]).unusedBytes = n.unusedBytes ∧
      (prepareTreemapNodes [] [(str "a", ⟨1, none, none⟩),
          (str "b", ⟨2, none, none⟩)]).duplicate = n.duplicate :=
  C2_leaf_preservation_amended [] [(str "a", ⟨1, none, none⟩),
    (str "b", ⟨2, none, none⟩)] _ (mem_allNodes_self _)

theorem collapseAll_leaf (nm : Str) (rb : Nat) (ub : Option Nat) (dup : Option Str) :
    collapseAll (Node.mk nm rb ub dup []) = Node.mk nm rb ub dup [] := by
  rw [collapseAll_eq]
  simp

/-- C1 counterexample: with the sources a (1 byte), a/b (2 bytes) and a/c
(4 bytes), the source a ends on the internal node a, whose resourceBytes 7
differs from the sum 6 of its children's; the violation survives collapseAll
(the root merges with a into a node of resourceBytes 7 and children summing
to 6). -/
theorem C1_counterexample :
    (subtreeAt (buildTree [] [(str "a", ⟨1, none, none⟩), (str "a/b", ⟨2, none, none⟩),
          (str "a/c", ⟨4, none, none⟩)]) [str "a"]).map
        (fun n => (n.resourceBytes, n.children.map Node.resourceBytes))
      = some (7, [2, 4]) ∧
    (prepareTreemapNodes [] [(str "a", ⟨1, none, none⟩), (str "a/b", ⟨2, none, none⟩),
        (str "a/c", ⟨4, none, none⟩)]).resourceBytes = 7 ∧
    (prepareTreemapNodes [] [(str "a", ⟨1, none, none⟩), (str "a/b", ⟨2, none, none⟩),
        (str "a/c", ⟨4, none, none⟩)]).children.map Node.resourceBytes = [2, 4] ∧
    (7 : Nat) ≠ 2 + 4 := by
  have hb : buildTree [] [(str "a", ⟨1, none, none⟩), (str "a/b", ⟨2, none, none⟩),
        (str "a/c", ⟨4, none, none⟩)]
      = Node.mk [] 7 none none
          [Node.mk (str "a") 7 none none
            [Node.mk (str "b") 2 none none [],
             Node.mk (str "c") 4 none none []]] := rfl
  have hP : prepareTreemapNodes [] [(str "a", ⟨1, none, none⟩),
        (str "a/b", ⟨2, none, none⟩), (str "a/c", ⟨4, none, none⟩)]
      = Node.mk (str "/a") 7 none none
          [Node.mk (str "b") 2 none none [],
           Node.mk (str "c") 4 none none []] := by
    rw [prepareTreemapNodes, hb, collapseAll_eq]
    simp [str, collapseAll_leaf]
  refine ⟨by decide, ?_, ?_, by decide⟩
  · rw [hP]
    rfl
  · rw [hP]
    rfl

/-- C1 amended: the sum invariant holds (both before and after collapseAll)
provided no input path's segment sequence is a strict prefix of another
input path's segment sequence, i.e. no source denotes a strict ancestor
directory of another source; a source ending on an internal node adds its
bytes to that node but to none of the node's children, which is the only way
the invariant can break. -/
theorem C1_sum_invariant_amended (sourceRoot : Str)
    (sourcesData : List (Str × SourceData))
    (hnp : NoProperPrefix (segsEntries sourceRoot sourcesData)) :
    (∀ m ∈ allNodes (buildTree sourceRoot sourcesData), m.children ≠ [] →
      m.resourceBytes = childrenSumRB m ∧
      ((∃ c ∈ m.children, (Node.unusedBytes c).isSome = true) →
        m.unusedBytes = some (childrenSumUB m))) ∧
    (∀ m ∈ allNodes (prepareTreemapNodes sourceRoot sourcesData), m.children ≠ [] →
      m.resourceBytes = childrenSumRB m ∧
      ((∃ c ∈ m.children, (Node.unusedBytes c).isSome = true) →
        m.unusedBytes = some (childrenSumUB m))) := by
  have hne := segsEntries_ne_nil sourceRoot sourcesData
  have hstrong := buildFromSegs_strongOk_allNodes sourceRoot _ hne hnp
  constructor
  · rw [buildTree_eq_buildFromSegs]
    exact balanced_of_strongOk hstrong
  · rw [prepareTreemapNodes, buildTree_eq_buildFromSegs]
    exact balanced_of_strongOk (strongOk_collapseAll _ hstrong)

/-- Witness for C1 at a concrete input with no ancestor paths. -/
theorem C1_sum_invariant_amended_witness :
    NoProperPrefix (segsEntries [] [(str "a/b.js", ⟨100, some 10, none⟩),
      (str "a/c.js", ⟨50, none, none⟩)]) ∧
    ((∀ m ∈ allNodes (buildTree [] [(str "a/b.js", ⟨100, some 10, none⟩),
        (str "a/c.js", ⟨50, none, none⟩)]), m.children ≠ [] →
      m.resourceBytes = childrenSumRB m ∧
      ((∃ c ∈ m.children, (Node.unusedBytes c).isSome = true) →
        m.unusedBytes = some (childrenSumUB m))) ∧
    (∀ m ∈ allNodes (prepareTreemapNodes [] [(str "a/b.js", ⟨100, some 10, none⟩),
        (str "a/c.js", ⟨50, none, none⟩)]), m.children ≠ [] →
      m.resourceBytes = childrenSumRB m ∧
      ((∃ c ∈ m.children, (Node.unusedBytes c).isSome = true) →
        m.unusedBytes = some (childrenSumUB m)))) :=
  ⟨by unfold NoProperPrefix; decide,
   C1_sum_invariant_amended [] [(str "a/b.js", ⟨100, some 10, none⟩),
     (str "a/c.js", ⟨50, none, none⟩)] (by unfold NoProperPrefix; decide)⟩

/-- C3 counterexample: the single source a has a defined unusedBytes value 0,
yet no node of the built tree (before or after collapseAll) carries an
unusedBytes field, because line 93/110 tests JS truthiness and a defined zero
is falsy. -/
theorem C3_counterexample :
    (buildTree [] [(str "a", ⟨1, some 0, none⟩)]).unusedBytes = none ∧
    ((subtreeAt (buildTree [] [(str "a", ⟨1, some 0, none⟩)]) [str "a"]).map
        Node.unusedBytes) = some none ∧
    (prepareTreemapNodes [] [(str "a", ⟨1, some 0, none⟩)]).unusedBytes = none := by
  refine ⟨rfl, by decide, ?_⟩
  have hb : buildTree [] [(str "a", ⟨1, some 0, none⟩)]
      = Node.mk [] 1 none none [Node.mk (str "a") 1 none none []] := rfl
  rw [prepareTreemapNodes, hb, collapseAll_eq]
  simp

/-- C3 amended: a node of the uncompressed tree carries unusedBytes iff at
least one entry contributing to its subtree has a defined nonzero (truthy)
unusedBytes value, and the field is never a present zero; every node of the
final compressed tree carries its unusedBytes verbatim from a node of the
uncompressed tree. -/
theorem C3_unused_presence_amended (sourceRoot : Str)
    (sourcesData : List (Str × SourceData)) :
    (∀ π n, subtreeAt (buildTree sourceRoot sourcesData) π = some n →
      ((n.unusedBytes.isSome = true ↔
        ∃ x ∈ sourcesData,
          π.isPrefixOf (segmentsOf sourceRoot (normalizeKey x.1)) = true ∧
          x.2.unusedBytes.getD 0 ≠ 0) ∧
       n.unusedBytes ≠ some 0)) ∧
    (∀ m ∈ allNodes (prepareTreemapNodes sourceRoot sourcesData),
      ∃ n ∈ allNodes (buildTree sourceRoot sourcesData),
        m.unusedBytes = n.unusedBytes) := by
  have hne := segsEntries_ne_nil sourceRoot sourcesData
  constructor
  · intro π n hn
    rw [buildTree_eq_buildFromSegs] at hn
    cases hb : existsAt π (segsEntries sourceRoot sourcesData) with
    | false =>
      have h4 := (buildFromSegs_char sourceRoot _ hne π).1 hb
      rw [hn] at h4
      cases h4
    | true =>
      obtain ⟨n2, hn2, _, _, hub, _, _⟩ :=
        (buildFromSegs_char sourceRoot _ hne π).2 hb
      rw [hn] at hn2
      injection hn2 with hnn
      subst hnn
      constructor
      · rw [hub, ubAt_isSome_iff, ubSumAt_ne_zero_iff]
        constructor
        · rintro ⟨e, hees, hepre, hne2⟩
          obtain ⟨x, hx, rfl⟩ := mem_segsEntries.mp hees
          exact ⟨x, hx, hepre, hne2⟩
        · rintro ⟨x, hx, hxpre, hx2⟩
          exact ⟨(segmentsOf sourceRoot (normalizeKey x.1), x.2),
            mem_segsEntries.mpr ⟨x, hx, rfl⟩, hxpre, hx2⟩
      · rw [hub]
        exact ubAt_ne_some_zero _ _
  · intro m hm
    rw [prepareTreemapNodes] at hm
    obtain ⟨n, hnmem, _, hub, _⟩ := allNodes_collapseAll_fields _ m hm
    exact ⟨n, hnmem, hub⟩

/-- Witness for C3 at a concrete input. -/
theorem C3_unused_presence_amended_witness :
    ((Node.mk (str "a") 10 (some 5) none
        [Node.mk (str "b") 10 (some 5) none []]).unusedBytes.isSome = true ↔
      ∃ x ∈ [(str "a/b", (⟨10, some 5, none⟩ : SourceData))],
        [str "a"].isPrefixOf (segmentsOf [] (normalizeKey x.1)) = true ∧
        x.2.unusedBytes.getD 0 ≠ 0) ∧
    (Node.mk (str "a") 10 (some 5) none
        [Node.mk (str "b") 10 (some 5) none []]).unusedBytes ≠ some 0 :=
  (C3_unused_presence_amended [] [(str "a/b", ⟨10, some 5, none⟩)]).1
    [str "a"] (Node.mk (str "a") 10 (some 5) none
      [Node.mk (str "b") 10 (some 5) none []]) rfl

/-- C6: a duplicate key in the uncompressed tree appears only on the node at
the exact segment path of an input source that defines that key, and every
duplicate key in the final compressed tree is carried verbatim from a node of
the uncompressed tree (collapseAll never writes the duplicate field, so no
key is ever synthesized for an aggregated or compressed node). -/
theorem C6_duplicate_tagging (sourceRoot : Str)
    (sourcesData : List (Str × SourceData)) :
    (∀ π n k, subtreeAt (buildTree sourceRoot sourcesData) π = some n →
      n.duplicate = some k →
      ∃ x ∈ sourcesData, segmentsOf sourceRoot (normalizeKey x.1) = π ∧
        x.2.duplicate = some k) ∧
    (∀ m ∈ allNodes (prepareTreemapNodes sourceRoot sourcesData),
      m.duplicate.isSome = true →
      ∃ n ∈ allNodes (buildTree sourceRoot sourcesData),
        n.duplicate = m.duplicate) := by
  have hne := segsEntries_ne_nil sourceRoot sourcesData
  constructor
  · intro π n k hn hk
    rw [buildTree_eq_buildFromSegs] at hn
    cases hb : existsAt π (segsEntries sourceRoot sourcesData) with
    | false =>
      have h4 := (buildFromSegs_char sourceRoot _ hne π).1 hb
      rw [hn] at h4
      cases h4
    | true =>
      obtain ⟨n2, hn2, _, _, _, hdup, _⟩ :=
        (buildFromSegs_char sourceRoot _ hne π).2 hb
      rw [hn] at hn2
      injection hn2 with hnn
      subst hnn
      have hda : dupAt π (segsEntries sourceRoot sourcesData) = some k := by
        rw [← hdup, hk]
      obtain ⟨e, hees, he1, he2⟩ := dupAt_some hda
      obtain ⟨x, hx, rfl⟩ := mem_segsEntries.mp hees
      exact ⟨x, hx, he1, he2⟩
  · intro m hm _
    rw [prepareTreemapNodes] at hm
    obtain ⟨n, hnmem, _, _, hd⟩ := allNodes_collapseAll_fields _ m hm
    exact ⟨n, hnmem, hd.symm⟩

/-- Witness for C6 at a concrete input. -/
theorem C6_duplicate_tagging_witness :
    (∃ x ∈ [(str "a", (⟨1, none, some (str "k")⟩ : SourceData)),
        (str "b", (⟨2, none, none⟩ : SourceData))],
      segmentsOf [] (normalizeKey x.1) = [str "a"] ∧
      x.2.duplicate = some (str "k")) ∧
    (∃ n ∈ allNodes (buildTree [] [(str "a", ⟨1, none, some (str "k")⟩),
        (str "b", ⟨2, none, none⟩)]),
      n.duplicate = (Node.mk (str "a") 1 none (some (str "k")) []).duplicate) := by
  constructor
  · exact (C6_duplicate_tagging [] [(str "a", ⟨1, none, some (str "k")⟩),
      (str "b", ⟨2, none, none⟩)]).1 [str "a"]
      (Node.mk (str "a") 1 none (some (str "k")) []) (str "k") rfl rfl
  · apply (C6_duplicate_tagging [] [(str "a", ⟨1, none, some (str "k")⟩),
      (str "b", ⟨2, none, none⟩)]).2
      (Node.mk (str "a") 1 none (some (str "k")) [])
    · have hb : buildTree [] [(str "a", ⟨1, none, some (str "k")⟩),
          (str "b", ⟨2, none, none⟩)]
        = Node.mk [] 3 none none
            [Node.mk (str "a") 1 none (some (str "k")) [],
             Node.mk (str "b") 2 none none []] := rfl
      have hP : prepareTreemapNodes [] [(str "a", ⟨1, none, some (str "k")⟩),
          (str "b", ⟨2, none, none⟩)]
        = Node.mk [] 3 none none
            [Node.mk (str "a") 1 none (some (str "k")) [],
             Node.mk (str "b") 2 none none []] := by
        rw [prepareTreemapNodes, hb, collapseAll_eq]
        simp [collapseAll_leaf]
      rw [hP, allNodes_eq]
      apply List.mem_cons_of_mem
      rw [Node.children_mk, allNodesList_cons, allNodesList_nil]
      simp
    · rfl

/-- C9: an external script whose src matches no bundle, or has no coverage
entry, never makes the assembler fail: its container is emitted with a
childless node named by the src whose resourceBytes is the character length
of the src string. -/
theorem C9_missing_bundle_fallback {Cov : Type} (scripts : List ScriptElement)
    (finalUrl : Str) (bundles : List Bundle) (jsUsage : List (Str × Cov))
    (summaryOf : Str → Cov → Bundle → UnusedSummary)
    (normalizeSource : Str → Str) (duplicationKeys : List Str)
    (s : ScriptElement) (u : Str) (hs : s ∈ scripts) (hu : s.truthySrc = some u)
    (hmiss : bundles.find? (fun b => u = b.scriptSrc) = none ∨
      recordGet jsUsage u = none) :
    (⟨u, Node.mk u u.length none none []⟩ : RootNodeContainer) ∈
      makeRootNodes scripts finalUrl bundles jsUsage summaryOf normalizeSource
        duplicationKeys := by
  have hproc : processScript bundles jsUsage summaryOf normalizeSource duplicationKeys s
      = some ⟨u, Node.mk u u.length none none []⟩ := by
    simp only [processScript, hu]
    rcases hmiss with h | h
    · rw [h]
    · rw [h]
      cases hb2 : bundles.find? (fun b => u = b.scriptSrc) <;> rfl
  rw [makeRootNodes]
  exact List.mem_append.mpr (Or.inr (List.mem_filterMap.mpr ⟨s, hs, hproc⟩))

/-- Witness for C9 at a concrete input with no bundles and no coverage. -/
theorem C9_missing_bundle_fallback_witness :
    (⟨str "x.js", Node.mk (str "x.js") (str "x.js").length none none []⟩ :
        RootNodeContainer) ∈
      @makeRootNodes Unit [⟨some (str "x.js"), none⟩] (str "p") [] []
        (fun _ _ _ => ⟨0, 0, none⟩) (fun s => s) [] :=
  C9_missing_bundle_fallback [⟨some (str "x.js"), none⟩] (str "p") [] []
    (fun _ _ _ => ⟨0, 0, none⟩) (fun s => s) [] ⟨some (str "x.js"), none⟩
    (str "x.js") (List.mem_singleton.mpr rfl) rfl (Or.inl rfl)

